import Mathlib

/-!
Verification of the CSS front end's source-map utilities and parser behavior.

The development shallowly embeds:
* the line table (`createLineTable` / `computeLineTable` in the source, both
  sharing the same construction and binary-search `find`),
* the source-map builder `createSourceMap` (DecodedSourceMap version),
* the translation map `createTranslationMap`,
* the CSS parser `parse` (the parser source itself is not part of this
  source tree; it is modelled from the specification, see the doc comments
  of the parser definitions).

Texts are embedded as `List Char`, offsets/indices as `Nat` (JS numbers are
only ever non-negative integers in the embedded code paths).
-/

namespace CssCore

/-- The line-break character `\n` (0x0A), the only line terminator
recognised by the line table. -/
def lineBreakChar : Char := '\n'

/-- A position in source code, one-based line and column, mirroring the
`Position` interface of the source. -/
structure Position where
  line : Nat
  column : Nat
deriving DecidableEq, Repr

/-- The loop of `createLineTable`
(`for i: if (source.charCodeAt(i) === LINE_BREAK) table.push(i + 1)`),
accumulating the offsets immediately after each line break; `i` is the
offset of the character at the head of the remaining text. -/
def lineStartsAux : List Char → Nat → List Nat
  | [], _ => []
  | c :: cs, i =>
    if c = lineBreakChar then (i + 1) :: lineStartsAux cs (i + 1)
    else lineStartsAux cs (i + 1)

/-- The `table` built by `createLineTable`/`computeLineTable`:
`let table: number[] = [0]` followed by the scan loop. -/
def lineStartTable (source : List Char) : List Nat :=
  0 :: lineStartsAux source 0

/-- The binary-search loop of `find`, embedded with an explicit `fuel`
counter that decreases structurally (the JS `while (count > 0)` loop
strictly decreases `count` each iteration, so `fuel = count` at entry makes
the two coincide; see `findLoop_eq_rank`). Out-of-range reads `table[i]`
return the default `d`; they never occur for in-range arguments, so the
result does not depend on `d`. -/
def findLoop (table : List Nat) (offset : Nat) : Nat → Nat → Nat → Nat → Nat
  | line, _, 0, _ => line
  | line, count, fuel + 1, d =>
    if count = 0 then line
    else
      let mid := count / 2
      let i := line + mid
      if table.getD i d ≤ offset then
        findLoop table offset (i + 1) (count - mid - 1) fuel d
      else
        findLoop table offset line mid fuel d

/-- A table that turns an offset into a line/column `Position`
(the `LineTable` interface of the source). -/
structure LineTable where
  find : Nat → Position

/-- `createLineTable` from the source: builds the line-start table and
returns `find`, which runs the binary search, then
`line -= 1; column = offset - table[line]; return {line+1, column+1}`. -/
def createLineTable (source : List Char) : LineTable :=
  let table := lineStartTable source
  ⟨fun offset =>
    let line := findLoop table offset 0 table.length table.length 0
    let line := line - 1
    let column := offset - table.getD line 0
    ⟨line + 1, column + 1⟩⟩

/-- `computeLineTable` from the source is the same construction and lookup
as `createLineTable` (the two files carry identical code). -/
def computeLineTable (text : List Char) : LineTable :=
  createLineTable text

/-- The number of entries of `table` that are `≤ offset`; for the sorted
line-start table this is the (1-based) line number `find` must return. -/
def rank (table : List Nat) (offset : Nat) : Nat :=
  table.countP (fun s => s ≤ offset)

end CssCore

namespace CssCore

/-- Join a list of lines with a separator, used to compare the `"\n"` and
`"\r\n"` renderings of the same content. -/
def joinWith (sep : List Char) : List (List Char) → List Char
  | [] => []
  | [l] => l
  | l :: ls => l ++ sep ++ joinWith sep ls

/-- Expected line starts after the initial 0 for content joined with a
separator of length `k`: each line starts `k` characters past the end of
the previous line. -/
def nextStarts (k : Nat) : Nat → List (List Char) → List Nat
  | _, [] => []
  | _, [_] => []
  | i, l :: ls => (i + l.length + k) :: nextStarts k (i + l.length + k) ls

/-- Start offset of line `j` (0-based) in content joined with a separator
of length `k`, counting from base offset `i`. -/
def startVal (k : Nat) : Nat → List (List Char) → Nat → Nat
  | i, _, 0 => i
  | i, [], _ + 1 => i
  | i, l :: ls, j + 1 => startVal k (i + l.length + k) ls j

end CssCore

namespace CssCore

/-- Per-field offsets of an AST node: `src: [start, end)` into the original
text (always present when the field is present), `dst: [start, end)` into
the generated text (present only after a tracking serialization). -/
structure Offsets where
  src : Nat × Nat
  dst : Option (Nat × Nat)
deriving DecidableEq, Repr

/-- The AST node kinds, carrying the named offset fields the source-map
builder and translation map read (`node.offsets.<field>`, each possibly
undefined) and the child sequences the walker descends into. The scalar
text fields of the nodes are irrelevant to these two consumers and are not
modelled. -/
inductive AstNode where
  | comment (value : Option Offsets)
  | declaration (property value : Option Offsets)
  | rule (selector body : Option Offsets) (nodes : List AstNode)
  | atRule (name params body : Option Offsets) (nodes : List AstNode)
  | atRoot (body : Option Offsets) (nodes : List AstNode)

/-- The `walk` of `createSourceMap`: a pre-order depth-first traversal
pushing, per node kind, the offset groups
(declaration → property, value; rule → selector, body;
at-rule → name, params, body; comment → value; at-root → body). -/
def collectGroups : List AstNode → List (Option Offsets)
  | [] => []
  | n :: rest => groupsOf n ++ collectGroups rest
where
  /-- The groups pushed for a single visited node, followed by those of its
  children (the walk descends into children after visiting the node). -/
  groupsOf : AstNode → List (Option Offsets)
    | .comment v => [v]
    | .declaration p v => [p, v]
    | .rule s b ns => [s, b] ++ collectGroups ns
    | .atRule nm p b ns => [nm, p, b] ++ collectGroups ns
    | .atRoot b ns => [b] ++ collectGroups ns

/-- A "decoded" source (ECMA-426). -/
structure DecodedSource where
  url : Option String
  content : Option String
  ignore : Bool
deriving DecidableEq, Repr

/-- A "decoded" mapping (ECMA-426). -/
structure DecodedMapping where
  generatedLine : Nat
  generatedColumn : Nat
  originalLine : Nat
  originalColumn : Nat
  originalSource : Option DecodedSource
  name : Option String
deriving DecidableEq, Repr

/-- A "decoded" sourcemap (ECMA-426). -/
structure DecodedSourceMap where
  file : Option String
  sources : List DecodedSource
  mappings : List DecodedMapping
deriving DecidableEq, Repr

/-- The emission loop of `createSourceMap`: for every collected group that
is defined and has a `dst`, push two records, the start positions followed
by the end positions; groups that are undefined or have no `dst` are
skipped (`if (!group) continue; if (!group.dst) continue`). -/
def emitMappings (originalTable generatedTable : LineTable) :
    List (Option Offsets) → List DecodedMapping
  | [] => []
  | none :: groups => emitMappings originalTable generatedTable groups
  | some group :: groups =>
    match group.dst with
    | none => emitMappings originalTable generatedTable groups
    | some dst =>
      let originalStart := originalTable.find group.src.1
      let generatedStart := generatedTable.find dst.1
      let originalEnd := originalTable.find group.src.2
      let generatedEnd := generatedTable.find dst.2
      { name := none, originalSource := none,
        originalLine := originalStart.line, originalColumn := originalStart.column,
        generatedLine := generatedStart.line, generatedColumn := generatedStart.column } ::
      { name := none, originalSource := none,
        originalLine := originalEnd.line, originalColumn := originalEnd.column,
        generatedLine := generatedEnd.line, generatedColumn := generatedEnd.column } ::
      emitMappings originalTable generatedTable groups

/-- The sort comparator of `createSourceMap`
(`a.generatedLine - b.generatedLine`, ties by `generatedColumn`):
`mappingLt a b` holds when the comparator is negative. -/
def mappingLt (a b : DecodedMapping) : Bool :=
  if a.generatedLine = b.generatedLine then a.generatedColumn < b.generatedColumn
  else a.generatedLine < b.generatedLine

/-- Insert `m` after all entries strictly before it, keeping it before
equal entries; with `sortMappings` this is a stable sort, matching
ECMAScript's (stable) `Array.prototype.sort` with the comparator above. -/
def insertSorted (m : DecodedMapping) : List DecodedMapping → List DecodedMapping
  | [] => [m]
  | x :: xs => if mappingLt x m then x :: insertSorted m xs else m :: x :: xs

/-- `map.mappings.sort(...)`: stable sort by generated position. -/
def sortMappings : List DecodedMapping → List DecodedMapping
  | [] => []
  | x :: xs => insertSorted x (sortMappings xs)

/-- The `filter` pass of `createSourceMap` that is meant to remove
duplicate generated positions, with its `last` closure variable. When the
position equals the previous record's, the callback returns `false`; in
every other case the callback runs `last = mapping` and then falls through
to a bare `return`, so it returns `undefined` — which is falsy — and the
record is dropped as well. The filter therefore keeps nothing. -/
def dedupFilter (last : Option DecodedMapping) :
    List DecodedMapping → List DecodedMapping
  | [] => []
  | m :: ms =>
    match last with
    | some l =>
      if l.generatedLine = m.generatedLine ∧ l.generatedColumn = m.generatedColumn then
        dedupFilter last ms
      else
        dedupFilter (some m) ms
    | none => dedupFilter (some m) ms

/-- `createSourceMap({original, generated, ast})`: build the two line
tables, walk the AST collecting offset groups, emit two records per
qualifying group, sort by generated position, run the dedup filter. -/
def createSourceMap (original generated : List Char) (ast : List AstNode) :
    DecodedSourceMap :=
  let originalTable := createLineTable original
  let generatedTable := createLineTable generated
  let groups := collectGroups ast
  let sorted := sortMappings (emitMappings originalTable generatedTable groups)
  { file := none
    sources := [{ url := none, content := none, ignore := false }]
    mappings := dedupFilter none sorted }

/-- Whether a collected group produces records: it is defined and has a
`dst` range. -/
def qualifies : Option Offsets → Bool
  | none => false
  | some o => o.dst.isSome

end CssCore

namespace CssCore

/-- A translation-map entry: the 4-tuple
`(originalStart, originalEnd, generatedStart | null, generatedEnd | null)`. -/
structure Translation where
  originalStart : Position
  originalEnd : Position
  generatedStart : Option Position
  generatedEnd : Option Position
deriving DecidableEq, Repr

/-- `Object.entries(node.offsets)`: the named offset fields actually
present on the node, in field order. -/
def offsetEntry (fieldName : String) : Option Offsets → List (String × Offsets)
  | none => []
  | some o => [(fieldName, o)]

/-- The named offset fields of each node kind, as enumerated by
`Object.entries(node.offsets)`. -/
def AstNode.offsets : AstNode → List (String × Offsets)
  | .comment v => offsetEntry "value" v
  | .declaration p v => offsetEntry "property" p ++ offsetEntry "value" v
  | .rule s b _ => offsetEntry "selector" s ++ offsetEntry "body" b
  | .atRule n p b _ =>
    offsetEntry "name" n ++ offsetEntry "params" p ++ offsetEntry "body" b
  | .atRoot b _ => offsetEntry "body" b

/-- JS object assignment `translations[name] = v`: overwrite the entry if
the key exists, otherwise append it. -/
def recordSet (m : List (String × Translation)) (k : String) (v : Translation) :
    List (String × Translation) :=
  if m.any (fun p => p.1 = k) then
    m.map (fun p => if p.1 = k then (k, v) else p)
  else m ++ [(k, v)]

/-- The translation built for one offsets record:
`[originalTable.find(src[0]), originalTable.find(src[1]),
  dst ? generatedTable.find(dst[0]) : null,
  dst ? generatedTable.find(dst[1]) : null]`. -/
def translationOf (originalTable generatedTable : LineTable) (o : Offsets) :
    Translation :=
  { originalStart := originalTable.find o.src.1
    originalEnd := originalTable.find o.src.2
    generatedStart :=
      match o.dst with
      | some d => some (generatedTable.find d.1)
      | none => none
    generatedEnd :=
      match o.dst with
      | some d => some (generatedTable.find d.2)
      | none => none }

/-- `createTranslationMap({original, generated})`: build the two line
tables and return the per-node function that fills a record keyed by
field name. -/
def createTranslationMap (original generated : List Char) :
    AstNode → List (String × Translation) :=
  let originalTable := createLineTable original
  let generatedTable := createLineTable generated
  fun node =>
    node.offsets.foldl
      (fun translations entry =>
        recordSet translations entry.1
          (translationOf originalTable generatedTable entry.2)) []

end CssCore

namespace CssCore

/-- Modelled from the spec: the parser source (`css-parser.ts`) is not part
of this source tree (only its tests are), so the parse-error taxonomy of §7
is modelled from the spec's words: three fatal errors, each carrying a
human-readable message. `fuelExhausted` is an artifact of the total
embedding and is unreachable for the fuel used by `parse`. -/
inductive ParseError where
  | unbalancedOpeningBrace (message : String)
  | unbalancedClosingBrace (message : String)
  | unterminatedString (message : String)
  | fuelExhausted
deriving DecidableEq, Repr

/-- Modelled from the spec: the parsed AST node kinds of §3, restricted to
the fields the parser fills (offset tracking is not modelled here). -/
inductive CNode where
  | comment (value : String)
  | declaration (property value : String) (important : Bool)
  | rule (selector : String) (nodes : List CNode)
  | atRule (name params : String) (nodes : Option (List CNode))

/-- Whitespace characters for selector/value normalization. -/
def isSpaceChar (c : Char) : Bool :=
  c = ' ' || c = '\t' || c = '\n' || c = '\r'

/-- Drop leading whitespace. -/
def trimLeadingSpace : List Char → List Char
  | [] => []
  | c :: cs => if isSpaceChar c then trimLeadingSpace cs else c :: cs

/-- Trim whitespace at both ends. -/
def trimSpace (cs : List Char) : List Char :=
  (trimLeadingSpace ((trimLeadingSpace cs).reverse)).reverse

/-- Collapse consecutive spaces to one. -/
def dedupSpaces : List Char → List Char
  | [] => []
  | [c] => [c]
  | c1 :: c2 :: cs =>
    if c1 = ' ' && c2 = ' ' then dedupSpaces (c2 :: cs)
    else c1 :: dedupSpaces (c2 :: cs)

/-- Modelled from the spec (§4.2 selectors): runs of whitespace, including
newlines, normalize to a single space; leading/trailing whitespace is
trimmed. -/
def normalizeSelector (cs : List Char) : List Char :=
  trimSpace (dedupSpaces (cs.map (fun c => if isSpaceChar c then ' ' else c)))

/-- Split a declaration buffer at its first `:`. -/
def splitAtColon : List Char → Option (List Char × List Char)
  | [] => none
  | ':' :: cs => some ([], cs)
  | c :: cs =>
    match splitAtColon cs with
    | some (l, r) => some (c :: l, r)
    | none => none

/-- Split at the first whitespace character (at-rule name vs params). -/
def splitAtSpace : List Char → List Char × List Char
  | [] => ([], [])
  | c :: cs =>
    if isSpaceChar c then ([], cs)
    else
      let (a, b) := splitAtSpace cs
      (c :: a, b)

/-- The literal `!important` flag text. -/
def importantSuffix : List Char := "!important".data

/-- Modelled from the spec (§4.2 declarations): trim the value and strip a
trailing `!important` into the `important` flag. -/
def parseImportant (v : List Char) : List Char × Bool :=
  let t := trimSpace v
  if importantSuffix.isSuffixOf t then
    (trimSpace (t.take (t.length - importantSuffix.length)), true)
  else (t, false)

/-- Modelled from the spec (§4.2 declarations):
`property: value [!important]?` from an accumulated statement buffer. -/
def parseDeclarationBuffer (t : List Char) : CNode :=
  match splitAtColon t with
  | some (p, v) =>
    let (vv, imp) := parseImportant v
    CNode.declaration (String.mk (trimSpace p)) (String.mk vv) imp
  | none => CNode.declaration (String.mk (trimSpace t)) "" false

/-- Modelled from the spec (§4.2 at-rules): `@name params`, splitting the
prelude at the first whitespace. -/
def parseAtRuleBuffer (t : List Char) (body : Option (List CNode)) : CNode :=
  let (nm, ps) := splitAtSpace t
  CNode.atRule (String.mk nm) (String.mk (trimSpace ps)) body

/-- Finish the pending statement buffer at a `;`, a `\x7d` or end of input:
blank buffers produce nothing, `@`-buffers a body-less at-rule, anything
else a declaration (a missing trailing `;` is legal there). -/
def flushBuffer (buffer : List Char) (nodes : List CNode) : List CNode :=
  let t := trimSpace buffer
  if t = [] then nodes
  else if t.head? = some '@' then nodes ++ [parseAtRuleBuffer t none]
  else nodes ++ [parseDeclarationBuffer t]

/-- Modelled from the spec (§4.2 comments): scan a `/* ... */` interior
after the opener; a backslash escapes the next character, so an escaped
closing sequence does not terminate; an unclosed comment runs to end of
input. Returns the interior and the rest of the input. -/
def scanComment : List Char → List Char → List Char × List Char
  | acc, [] => (acc, [])
  | acc, '\\' :: c :: rest => scanComment (acc ++ ['\\', c]) rest
  | acc, '*' :: '/' :: rest => (acc, rest)
  | acc, c :: rest => scanComment (acc ++ [c]) rest

/-- The `UnterminatedString` message: the opening quote plus the literal
content scanned so far, quoted. -/
def unterminatedMessage (q : Char) (acc : List Char) : String :=
  String.mk ("Unterminated string: ".data ++ [q] ++ acc ++ [q])

/-- Modelled from the spec (§4.2 strings): scan a quoted literal after its
opening quote, verbatim, with backslash-escaped characters (including the
terminator) not ending the string; reaching a line break or the end of
input before the matching quote is an `UnterminatedString` error whose
message carries the opening quote and the content scanned so far. -/
def scanString (q : Char) : List Char → List Char →
    Except ParseError (List Char × List Char)
  | acc, [] => .error (.unterminatedString (unterminatedMessage q acc))
  | acc, '\\' :: c :: rest => scanString q (acc ++ ['\\', c]) rest
  | acc, c :: rest =>
    if c = q then .ok (acc, rest)
    else if c = lineBreakChar then
      .error (.unterminatedString (unterminatedMessage q acc))
    else scanString q (acc ++ [c]) rest

/-- Scanner state inside a custom-property raw value. -/
inductive RawMode where
  | rawNormal
  | rawComment
  | rawString (q : Char)
deriving DecidableEq, Repr

/-- Modelled from the spec (§4.2 custom properties): capture the raw value
up to the first top-level `;` (consumed) or block-closing `\x7d` (left in
the input), where: a `\x7b ... \x7d` block in the value is captured as raw
text including `;`/`\x7d` inside nested comments or strings; comments are
preserved verbatim; a backslash escapes the next character, so an escaped
`;` does not terminate the value. -/
def scanRawValue : List Char → Nat → RawMode → List Char → List Char × List Char
  | acc, _, _, [] => (acc, [])
  | acc, depth, .rawComment, '*' :: '/' :: rest =>
    scanRawValue (acc ++ ['*', '/']) depth .rawNormal rest
  | acc, depth, .rawComment, '\\' :: c :: rest =>
    scanRawValue (acc ++ ['\\', c]) depth .rawComment rest
  | acc, depth, .rawComment, c :: rest =>
    scanRawValue (acc ++ [c]) depth .rawComment rest
  | acc, depth, .rawString q, '\\' :: c :: rest =>
    scanRawValue (acc ++ ['\\', c]) depth (.rawString q) rest
  | acc, depth, .rawString q, c :: rest =>
    if c = q then scanRawValue (acc ++ [c]) depth .rawNormal rest
    else scanRawValue (acc ++ [c]) depth (.rawString q) rest
  | acc, depth, .rawNormal, '\\' :: c :: rest =>
    scanRawValue (acc ++ ['\\', c]) depth .rawNormal rest
  | acc, depth, .rawNormal, '/' :: '*' :: rest =>
    scanRawValue (acc ++ ['/', '*']) depth .rawComment rest
  | acc, depth, .rawNormal, '\'' :: rest =>
    scanRawValue (acc ++ ['\'']) depth (.rawString '\'') rest
  | acc, depth, .rawNormal, '"' :: rest =>
    scanRawValue (acc ++ ['"']) depth (.rawString '"') rest
  | acc, depth, .rawNormal, '{' :: rest =>
    scanRawValue (acc ++ ['{']) (depth + 1) .rawNormal rest
  | acc, depth, .rawNormal, '}' :: rest =>
    match depth with
    | 0 => (acc, '}' :: rest)
    | d + 1 => scanRawValue (acc ++ ['}']) d .rawNormal rest
  | acc, depth, .rawNormal, ';' :: rest =>
    match depth with
    | 0 => (acc, rest)
    | _ + 1 => scanRawValue (acc ++ [';']) depth .rawNormal rest
  | acc, depth, .rawNormal, c :: rest =>
    scanRawValue (acc ++ [c]) depth .rawNormal rest

/-- An open block: its normalized selector/prelude and the node list of the
enclosing context, restored when the block closes. -/
structure Frame where
  selector : List Char
  nodes : List CNode

/-- Modelled from the spec (§4.2, §9): the parser source is not part of
this source tree, so the single left-to-right scan with an explicit
open-block stack is modelled from the spec's words. State: the remaining
input, the pending statement buffer, the stack of open blocks, the node
list of the innermost open context, and the license comments collected so
far (hoisted to the document root by `parse`). Each step consumes at least
one character, so `fuel = input length + 1` makes the fuel branch
unreachable. On end of input inside an open block the parse fails with
`UnbalancedClosingBrace` naming the innermost open selector/prelude. -/
def parseBody
    (next : List Char → List Char → List Frame → List CNode → List String →
      Except ParseError (List String × List CNode))
    (cs buffer : List Char) (stack : List Frame) (nodes : List CNode)
    (licenses : List String) : Except ParseError (List String × List CNode) :=
    match cs with
    | [] =>
      match stack with
      | frame :: _ =>
        .error (.unbalancedClosingBrace
          (String.mk ("Missing closing \x7d at ".data ++ frame.selector)))
      | [] => .ok (licenses, flushBuffer buffer nodes)
    | '\\' :: c :: rest =>
      next rest (buffer ++ ['\\', c]) stack nodes licenses
    | '/' :: '*' :: rest =>
      let scanned := scanComment [] rest
      let licenses2 :=
        if scanned.1.head? = some '!' then licenses ++ [String.mk scanned.1]
        else licenses
      next scanned.2 buffer stack nodes licenses2
    | '\'' :: rest =>
      match scanString '\'' [] rest with
      | .error e => .error e
      | .ok (content, rest2) =>
        next rest2 (buffer ++ ['\''] ++ content ++ ['\'']) stack nodes licenses
    | '"' :: rest =>
      match scanString '"' [] rest with
      | .error e => .error e
      | .ok (content, rest2) =>
        next rest2 (buffer ++ ['"'] ++ content ++ ['"']) stack nodes licenses
    | ':' :: rest =>
      if (trimSpace buffer).take 2 = ['-', '-'] then
        let scanned := scanRawValue [] 0 .rawNormal rest
        let vi := parseImportant scanned.1
        next scanned.2 [] stack
          (nodes ++ [CNode.declaration (String.mk (trimSpace buffer))
            (String.mk vi.1) vi.2]) licenses
      else next rest (buffer ++ [':']) stack nodes licenses
    | ';' :: rest =>
      next rest [] stack (flushBuffer buffer nodes) licenses
    | '{' :: rest =>
      next rest [] (⟨normalizeSelector buffer, nodes⟩ :: stack) [] licenses
    | '}' :: rest =>
      match stack with
      | [] => .error (.unbalancedOpeningBrace "Missing opening \x7b")
      | frame :: stackRest =>
        let kids := flushBuffer buffer nodes
        let node :=
          if frame.selector.head? = some '@' then
            parseAtRuleBuffer frame.selector (some kids)
          else CNode.rule (String.mk frame.selector) kids
        next rest [] stackRest (frame.nodes ++ [node]) licenses
    | c :: rest => next rest (buffer ++ [c]) stack nodes licenses

/-- The scan loop: one `parseBody` step per unit of fuel. Each step
consumes at least one input character, so `fuel = input length + 1` makes
the fuel branch unreachable. -/
def parseGo : Nat → List Char → List Char → List Frame → List CNode →
    List String → Except ParseError (List String × List CNode)
  | 0, _, _, _, _, _ => .error .fuelExhausted
  | fuel + 1, cs, buffer, stack, nodes, licenses =>
    parseBody (parseGo fuel) cs buffer stack nodes licenses

/-- Modelled from the spec: `parse(text)` — run the scan from an empty
state; on success the collected license comments are re-inserted as
`Comment` nodes at the document root, in original document order, before
all other top-level nodes. -/
def parse (css : String) : Except ParseError (List CNode) :=
  match parseGo (css.data.length + 1) css.data [] [] [] [] with
  | .error e => .error e
  | .ok (licenses, nodes) =>
    .ok (licenses.map (fun v => CNode.comment v) ++ nodes)

/-- A node tree containing no comment node at any depth. -/
inductive CommentFree : CNode → Prop where
  | declaration (p v : String) (i : Bool) : CommentFree (.declaration p v i)
  | rule (s : String) (ns : List CNode) :
      (∀ n ∈ ns, CommentFree n) → CommentFree (.rule s ns)
  | atRuleNone (nm ps : String) : CommentFree (.atRule nm ps none)
  | atRuleSome (nm ps : String) (ns : List CNode) :
      (∀ n ∈ ns, CommentFree n) → CommentFree (.atRule nm ps (some ns))

end CssCore

namespace CssCore

/-- A syntactic piece of a custom-property block body, used to quantify
over all block contents: a plain character, a backslash escape, a `;`
(top-level inside the block), a comment `/* ... */` whose body may freely
contain `;` or `\x7d`, a quoted string whose body may freely contain `;`
or `\x7d`, or a nested `\x7b ... \x7d` block. -/
inductive RawPiece where
  | plain (c : Char)
  | escaped (c : Char)
  | semi
  | commentPiece (body : List Char)
  | stringPiece (q : Char) (body : List Char)
  | blockPiece (inner : List RawPiece)

/-- The characters that change the raw scanner's state in normal mode; a
`plain` piece is any other character. -/
def rawNormalSpecials : List Char := ['\\', '/', '\'', '"', '{', '}', ';']

/-- Render a list of block-body pieces back to their source text. -/
def renderPieces : List RawPiece → List Char
  | [] => []
  | p :: ps => renderOne p ++ renderPieces ps
where
  /-- Render one piece to its source text. -/
  renderOne : RawPiece → List Char
    | .plain c => [c]
    | .escaped c => ['\\', c]
    | .semi => [';']
    | .commentPiece body => '/' :: '*' :: body ++ ['*', '/']
    | .stringPiece q body => q :: body ++ [q]
    | .blockPiece inner => '{' :: renderPieces inner ++ ['}']

/-- Well-formedness of a piece: plain characters are not state-changing,
comment bodies contain no `*` or backslash (so the comment closes where
written, while `;` and `\x7d` may appear freely), string bodies contain
neither their quote nor a backslash (again `;` and `\x7d` may appear
freely), and nested blocks are made of good pieces. -/
inductive GoodPiece : RawPiece → Prop where
  | plain (c : Char) : c ∉ rawNormalSpecials → GoodPiece (.plain c)
  | escaped (c : Char) : GoodPiece (.escaped c)
  | semi : GoodPiece .semi
  | commentPiece (body : List Char) : '*' ∉ body → '\\' ∉ body →
      GoodPiece (.commentPiece body)
  | stringPiece (q : Char) (body : List Char) : (q = '\'' ∨ q = '"') →
      q ∉ body → '\\' ∉ body → GoodPiece (.stringPiece q body)
  | blockPiece (inner : List RawPiece) : (∀ p ∈ inner, GoodPiece p) →
      GoodPiece (.blockPiece inner)

end CssCore

-- ===== end of definitions, theorems below =====

namespace CssCore

theorem rank_le_length (table : List Nat) (offset : Nat) :
    rank table offset ≤ table.length :=
  List.countP_le_length _

theorem rank_nil (offset : Nat) : rank [] offset = 0 := rfl

theorem rank_cons (s : Nat) (table : List Nat) (offset : Nat) :
    rank (s :: table) offset =
      rank table offset + (if s ≤ offset then 1 else 0) := by
  simp [rank, List.countP_cons]

theorem rank_eq_zero_of_gt (table : List Nat) (offset : Nat)
    (h : ∀ x ∈ table, offset < x) : rank table offset = 0 := by
  induction table with
  | nil => rfl
  | cons s rest ih =>
    have hs : offset < s := h s (by simp)
    rw [rank_cons, ih (fun x hx => h x (by simp [hx]))]
    simp [Nat.not_le.mpr hs]

/-- In a strictly sorted table, the entries `≤ offset` are exactly the
first `rank` entries. -/
theorem getElem_le_iff_lt_rank (table : List Nat) (offset : Nat)
    (hs : table.Sorted (· < ·)) (i : Nat) (hi : i < table.length) :
    (table[i] ≤ offset ↔ i < rank table offset) := by
  induction table generalizing i with
  | nil => simp at hi
  | cons s rest ih =>
    have hs' : rest.Sorted (· < ·) := (List.sorted_cons.mp hs).2
    have hlt : ∀ x ∈ rest, s < x := (List.sorted_cons.mp hs).1
    cases i with
    | zero =>
      simp only [List.getElem_cons_zero, rank_cons]
      constructor
      · intro h; simp [h]
      · intro h
        by_contra hn
        have hos : offset < s := Nat.not_le.mp hn
        have h0 : rank rest offset = 0 :=
          rank_eq_zero_of_gt rest offset (fun x hx => lt_trans hos (hlt x hx))
        rw [h0] at h
        simp [Nat.not_le.mpr hos] at h
    | succ i =>
      have hi' : i < rest.length := by simpa using hi
      rw [List.getElem_cons_succ, rank_cons, ih hs' i hi']
      by_cases hso : s ≤ offset
      · simp only [hso, if_true]
        omega
      · have h0 : rank rest offset = 0 :=
          rank_eq_zero_of_gt rest offset
            (fun x hx => lt_trans (Nat.not_le.mp hso) (hlt x hx))
        simp only [hso, if_false, h0]
        omega

/-- Binary-search correctness: with enough fuel and the loop invariant
`line ≤ rank ≤ line + count ≤ |table|`, `findLoop` computes `rank`,
independently of the out-of-range default `d`. -/
theorem findLoop_eq_rank (table : List Nat) (offset : Nat)
    (hs : table.Sorted (· < ·)) :
    ∀ fuel line count d, count ≤ fuel → line + count ≤ table.length →
      line ≤ rank table offset → rank table offset ≤ line + count →
      findLoop table offset line count fuel d = rank table offset := by
  intro fuel
  induction fuel with
  | zero =>
    intro line count d hcf _ h1 h2
    have : count = 0 := Nat.le_zero.mp hcf
    subst this
    simpa [findLoop] using le_antisymm h1 (by simpa using h2)
  | succ fuel ih =>
    intro line count d hcf hlen h1 h2
    by_cases hc : count = 0
    · subst hc
      simpa [findLoop] using le_antisymm h1 (by simpa using h2)
    · have hcpos : 0 < count := Nat.pos_of_ne_zero hc
      have hmid : count / 2 < count := Nat.div_lt_self hcpos (by omega)
      have hib : line + count / 2 < table.length := by omega
      have hget : table.getD (line + count / 2) d = table[line + count / 2] := by
        rw [List.getD_eq_getElem?_getD, List.getElem?_eq_getElem hib]
        rfl
      rw [findLoop]
      simp only [hc, if_false, hget]
      by_cases hle : table[line + count / 2] ≤ offset
      · have hrk : line + count / 2 < rank table offset :=
          (getElem_le_iff_lt_rank table offset hs _ hib).mp hle
        simp only [hle, if_true]
        exact ih (line + count / 2 + 1) (count - count / 2 - 1) d
          (by omega) (by omega) (by omega) (by omega)
      · have hrk : rank table offset ≤ line + count / 2 := by
          by_contra hn
          exact hle ((getElem_le_iff_lt_rank table offset hs _ hib).mpr (by omega))
        simp only [hle, if_false]
        exact ih line (count / 2) d (by omega) (by omega) h1 hrk

/-- `lineStartsAux cs i` only produces entries strictly greater than `i`,
and the list is strictly sorted. -/
theorem lineStartsAux_sorted (cs : List Char) (i : Nat) :
    (∀ x ∈ lineStartsAux cs i, i < x) ∧ (lineStartsAux cs i).Sorted (· < ·) := by
  induction cs generalizing i with
  | nil => simp [lineStartsAux]
  | cons c cs ih =>
    by_cases hc : c = lineBreakChar
    · obtain ⟨ihmem, ihsort⟩ := ih (i + 1)
      refine ⟨?_, ?_⟩
      · intro x hx
        simp only [lineStartsAux, hc, if_true, List.mem_cons] at hx
        rcases hx with h | h
        · omega
        · exact lt_trans (by omega) (ihmem x h)
      · simp only [lineStartsAux, hc, if_true]
        exact List.sorted_cons.mpr ⟨ihmem, ihsort⟩
    · obtain ⟨ihmem, ihsort⟩ := ih (i + 1)
      refine ⟨?_, ?_⟩
      · intro x hx
        simp only [lineStartsAux, hc, if_false] at hx
        exact lt_trans (by omega) (ihmem x hx)
      · simpa only [lineStartsAux, hc, if_false] using ihsort

theorem lineStartTable_sorted (source : List Char) :
    (lineStartTable source).Sorted (· < ·) := by
  obtain ⟨hmem, hsort⟩ := lineStartsAux_sorted source 0
  exact List.sorted_cons.mpr ⟨hmem, hsort⟩

theorem lineStartTable_ne_nil (source : List Char) :
    lineStartTable source ≠ [] := by
  simp [lineStartTable]

theorem rank_lineStartTable_pos (source : List Char) (offset : Nat) :
    1 ≤ rank (lineStartTable source) offset := by
  rw [lineStartTable, rank_cons]
  simp

/-- The result of `find`: line is `rank`, column is
`offset - table[rank - 1] + 1`. -/
theorem find_eq_rank (source : List Char) (offset : Nat) :
    (createLineTable source).find offset =
      ⟨rank (lineStartTable source) offset,
       offset - (lineStartTable source).getD (rank (lineStartTable source) offset - 1) 0 + 1⟩ := by
  have h := findLoop_eq_rank (lineStartTable source) offset
    (lineStartTable_sorted source) (lineStartTable source).length 0
    (lineStartTable source).length 0 (le_refl _) (by omega)
    (by omega) (by simpa using rank_le_length (lineStartTable source) offset)
  have hp := rank_lineStartTable_pos source offset
  simp only [createLineTable, h]
  have hr : rank (lineStartTable source) offset - 1 + 1 =
      rank (lineStartTable source) offset := by omega
  rw [hr]

end CssCore

namespace CssCore

theorem getD_eq_getElem (l : List Nat) (i : Nat) (h : i < l.length) :
    l.getD i 0 = l[i] := by
  rw [List.getD_eq_getElem?_getD, List.getElem?_eq_getElem h]
  rfl

/-- `find` returns the greatest recorded line start `≤ offset`, with the
column measured from that start. -/
theorem find_greatest_start (source : List Char) (offset : Nat) :
    ∃ j, j < (lineStartTable source).length ∧
      (lineStartTable source).getD j 0 ≤ offset ∧
      (∀ k, k < (lineStartTable source).length →
        (lineStartTable source).getD k 0 ≤ offset → k ≤ j) ∧
      (createLineTable source).find offset =
        ⟨j + 1, offset - (lineStartTable source).getD j 0 + 1⟩ := by
  set T := lineStartTable source with hT
  have hp : 1 ≤ rank T offset := rank_lineStartTable_pos source offset
  have hle : rank T offset ≤ T.length := rank_le_length T offset
  refine ⟨rank T offset - 1, by omega, ?_, ?_, ?_⟩
  · have hj : rank T offset - 1 < T.length := by omega
    rw [getD_eq_getElem T _ hj]
    exact (getElem_le_iff_lt_rank T offset (lineStartTable_sorted source) _ hj).mpr
      (by omega)
  · intro k hk hko
    rw [getD_eq_getElem T _ hk] at hko
    have := (getElem_le_iff_lt_rank T offset (lineStartTable_sorted source) k hk).mp hko
    omega
  · have := find_eq_rank source offset
    rw [this]
    have hr : rank T offset - 1 + 1 = rank T offset := by omega
    rw [hr]

end CssCore

namespace CssCore

theorem lineStartTable_mono (source : List Char) :
    ∀ i j (hi : i < (lineStartTable source).length)
      (hj : j < (lineStartTable source).length), i ≤ j →
      (lineStartTable source)[i] ≤ (lineStartTable source)[j] := by
  intro i j hi hj hij
  rcases Nat.eq_or_lt_of_le hij with h | h
  · subst h; rfl
  · exact le_of_lt ((List.pairwise_iff_getElem.mp (lineStartTable_sorted source))
      i j hi hj h)

theorem rank_eq_length_of_last_le (source : List Char) (offset : Nat)
    (h : (lineStartTable source).getD ((lineStartTable source).length - 1) 0 ≤ offset) :
    rank (lineStartTable source) offset = (lineStartTable source).length := by
  set T := lineStartTable source with hT
  have hne : T ≠ [] := lineStartTable_ne_nil source
  have hlen : 0 < T.length := List.length_pos.mpr hne
  have hlast : T.length - 1 < T.length := by omega
  rw [getD_eq_getElem T _ hlast] at h
  have hle := rank_le_length T offset
  by_contra hn
  have hrk : rank T offset < T.length := by omega
  have hmono := lineStartTable_mono source (rank T offset) (T.length - 1) hrk hlast (by omega)
  have : T[rank T offset] ≤ offset := le_trans hmono h
  have := (getElem_le_iff_lt_rank T offset (lineStartTable_sorted source) _ hrk).mp this
  omega

end CssCore

namespace CssCore

/-- C3: for every source text and offset, `find` returns the 1-based line
whose recorded line start is the greatest start `≤ offset`, with column
`offset - lineStart + 1`; in particular for the buffer `"a\nbb\nccc"`,
`find 0 = ⟨1,1⟩`, `find 2 = ⟨2,1⟩` and `find 5 = ⟨3,1⟩`. -/
theorem claim3_find_greatest_line_start :
    (∀ (source : List Char) (offset : Nat), ∃ j,
      j < (lineStartTable source).length ∧
      (lineStartTable source).getD j 0 ≤ offset ∧
      (∀ k, k < (lineStartTable source).length →
        (lineStartTable source).getD k 0 ≤ offset → k ≤ j) ∧
      (createLineTable source).find offset =
        ⟨j + 1, offset - (lineStartTable source).getD j 0 + 1⟩) ∧
    (createLineTable ("a\nbb\nccc".data)).find 0 = ⟨1, 1⟩ ∧
    (createLineTable ("a\nbb\nccc".data)).find 2 = ⟨2, 1⟩ ∧
    (createLineTable ("a\nbb\nccc".data)).find 5 = ⟨3, 1⟩ := by
  refine ⟨find_greatest_start, by rfl, by rfl, by rfl⟩

/-- Closed instance of C3's general clause at a concrete buffer and offset. -/
theorem claim3_find_greatest_line_start_witness :
    ∃ j, j < (lineStartTable ("a\nbb\nccc".data)).length ∧
      (lineStartTable ("a\nbb\nccc".data)).getD j 0 ≤ 4 ∧
      (∀ k, k < (lineStartTable ("a\nbb\nccc".data)).length →
        (lineStartTable ("a\nbb\nccc".data)).getD k 0 ≤ 4 → k ≤ j) ∧
      (createLineTable ("a\nbb\nccc".data)).find 4 =
        ⟨j + 1, 4 - (lineStartTable ("a\nbb\nccc".data)).getD j 0 + 1⟩ :=
  claim3_find_greatest_line_start.1 ("a\nbb\nccc".data) 4

/-- C10: `find` is total and safe: the line-start table is never empty and
starts with 0, the binary search never depends on the out-of-range default
(it never reads out of bounds), the returned line and column are at least
1, the line never exceeds the table length, and any offset at or past the
last recorded line start lands on the last line with the column measured
from that start. -/
theorem claim10_find_safety (source : List Char) (offset : Nat) :
    lineStartTable source ≠ [] ∧
    (lineStartTable source).head? = some 0 ∧
    (∀ d, findLoop (lineStartTable source) offset 0
        (lineStartTable source).length (lineStartTable source).length d =
      findLoop (lineStartTable source) offset 0
        (lineStartTable source).length (lineStartTable source).length 0) ∧
    1 ≤ ((createLineTable source).find offset).line ∧
    ((createLineTable source).find offset).line ≤ (lineStartTable source).length ∧
    1 ≤ ((createLineTable source).find offset).column ∧
    ((lineStartTable source).getD ((lineStartTable source).length - 1) 0 ≤ offset →
      ((createLineTable source).find offset).line = (lineStartTable source).length ∧
      ((createLineTable source).find offset).column =
        offset - (lineStartTable source).getD ((lineStartTable source).length - 1) 0 + 1) := by
  have hfind := find_eq_rank source offset
  have hp := rank_lineStartTable_pos source offset
  have hle := rank_le_length (lineStartTable source) offset
  have hloop : ∀ d, findLoop (lineStartTable source) offset 0
      (lineStartTable source).length (lineStartTable source).length d =
      rank (lineStartTable source) offset := fun d =>
    findLoop_eq_rank (lineStartTable source) offset (lineStartTable_sorted source)
      (lineStartTable source).length 0 (lineStartTable source).length d
      (le_refl _) (by omega) (by omega) (by simpa using hle)
  refine ⟨lineStartTable_ne_nil source, by simp [lineStartTable], ?_, ?_, ?_, ?_, ?_⟩
  · intro d; rw [hloop d, hloop 0]
  · rw [hfind]; exact hp
  · rw [hfind]; exact hle
  · rw [hfind]; exact Nat.succ_le_succ (Nat.zero_le _)
  · intro hlast
    have hrk := rank_eq_length_of_last_le source offset hlast
    rw [hfind]
    constructor
    · exact hrk
    · rw [hrk]

/-- Closed instance of C10 at a concrete buffer and an offset past the end. -/
theorem claim10_find_safety_witness :
    (lineStartTable ("ab\nc".data)).getD ((lineStartTable ("ab\nc".data)).length - 1) 0 ≤ 10 ∧
    ((createLineTable ("ab\nc".data)).find 10).line = (lineStartTable ("ab\nc".data)).length ∧
    ((createLineTable ("ab\nc".data)).find 10).column =
      10 - (lineStartTable ("ab\nc".data)).getD ((lineStartTable ("ab\nc".data)).length - 1) 0 + 1 :=
  ⟨by decide, (claim10_find_safety ("ab\nc".data) 10).2.2.2.2.2.2 (by decide)⟩

end CssCore

namespace CssCore

theorem mem_lineStartsAux (cs : List Char) :
    ∀ i n, n ∈ lineStartsAux cs i ↔
      ∃ j, cs[j]? = some lineBreakChar ∧ n = i + j + 1 := by
  induction cs with
  | nil => intro i n; simp [lineStartsAux]
  | cons c cs ih =>
    intro i n
    by_cases hc : c = lineBreakChar
    · simp only [lineStartsAux, hc, if_true, List.mem_cons, ih (i + 1)]
      constructor
      · rintro (rfl | ⟨j, hj, rfl⟩)
        · exact ⟨0, by simp [hc], by omega⟩
        · exact ⟨j + 1, by simpa using hj, by omega⟩
      · rintro ⟨j, hj, rfl⟩
        cases j with
        | zero => left; omega
        | succ j => right; exact ⟨j, by simpa using hj, by omega⟩
    · simp only [lineStartsAux, hc, if_false, ih (i + 1)]
      constructor
      · rintro ⟨j, hj, rfl⟩
        exact ⟨j + 1, by simpa using hj, by omega⟩
      · rintro ⟨j, hj, rfl⟩
        cases j with
        | zero =>
          simp only [List.getElem?_cons_zero, Option.some.injEq] at hj
          exact absurd hj hc
        | succ j => exact ⟨j, by simpa using hj, by omega⟩

theorem mem_lineStartTable (text : List Char) (n : Nat) :
    n ∈ lineStartTable text ↔
      (n = 0 ∨ ∃ j, text[j]? = some lineBreakChar ∧ n = j + 1) := by
  rw [lineStartTable, List.mem_cons, mem_lineStartsAux]
  constructor
  · rintro (rfl | ⟨j, hj, rfl⟩)
    · left; rfl
    · right; exact ⟨j, hj, by omega⟩
  · rintro (rfl | ⟨j, hj, rfl⟩)
    · left; rfl
    · right; exact ⟨j, hj, by omega⟩

theorem lineStartsAux_append_of_no_break (l : List Char)
    (hl : lineBreakChar ∉ l) :
    ∀ (rest : List Char) (i : Nat),
      lineStartsAux (l ++ rest) i = lineStartsAux rest (i + l.length) := by
  induction l with
  | nil => intro rest i; simp
  | cons c l ih =>
    intro rest i
    have hc : ¬(c = lineBreakChar) := fun h => hl (by simp [h])
    have hl' : lineBreakChar ∉ l := fun h => hl (by simp [h])
    have harg : i + 1 + l.length = i + (c :: l).length := by
      simp only [List.length_cons]
      omega
    simp only [List.cons_append, lineStartsAux, hc, if_false]
    exact harg ▸ ih hl' rest (i + 1)

theorem lineStartsAux_of_no_break (l : List Char) (hl : lineBreakChar ∉ l)
    (i : Nat) : lineStartsAux l i = [] := by
  have := lineStartsAux_append_of_no_break l hl [] i
  simpa using this

theorem lineStartsAux_joinWith (pre : List Char) (hpre : lineBreakChar ∉ pre) :
    ∀ (ls : List (List Char)), (∀ l ∈ ls, lineBreakChar ∉ l) → ∀ i,
      lineStartsAux (joinWith (pre ++ [lineBreakChar]) ls) i =
        nextStarts (pre.length + 1) i ls := by
  intro ls
  induction ls with
  | nil => intro _ i; simp [joinWith, lineStartsAux, nextStarts]
  | cons l ls ih =>
    intro h i
    have hl : lineBreakChar ∉ l := h l (by simp)
    have hrest : ∀ x ∈ ls, lineBreakChar ∉ x := fun x hx => h x (by simp [hx])
    cases ls with
    | nil =>
      simp only [joinWith, nextStarts]
      exact lineStartsAux_of_no_break l hl i
    | cons l2 ls2 =>
      have hjoin : joinWith (pre ++ [lineBreakChar]) (l :: l2 :: ls2) =
          l ++ (pre ++ (lineBreakChar :: joinWith (pre ++ [lineBreakChar]) (l2 :: ls2))) := by
        simp [joinWith]
      rw [hjoin, lineStartsAux_append_of_no_break l hl,
        lineStartsAux_append_of_no_break pre hpre]
      have hstep : lineStartsAux
            (lineBreakChar :: joinWith (pre ++ [lineBreakChar]) (l2 :: ls2))
            (i + l.length + pre.length) =
          (i + l.length + pre.length + 1) ::
            lineStartsAux (joinWith (pre ++ [lineBreakChar]) (l2 :: ls2))
              (i + l.length + pre.length + 1) := by
        simp [lineStartsAux]
      rw [hstep, ih hrest]
      rfl

theorem nextStarts_length (k : Nat) :
    ∀ (ls : List (List Char)) (i : Nat),
      (nextStarts k i ls).length = ls.length - 1 := by
  intro ls
  induction ls with
  | nil => intro i; simp [nextStarts]
  | cons l ls ih =>
    intro i
    cases ls with
    | nil => simp [nextStarts]
    | cons l2 ls2 =>
      simp only [nextStarts, List.length_cons, ih (i + l.length + k)]
      simp

theorem nextStarts_getElem (k : Nat) :
    ∀ (ls : List (List Char)) (i j : Nat), j < ls.length →
      (i :: nextStarts k i ls)[j]? = some (startVal k i ls j) := by
  intro ls
  induction ls with
  | nil => intro i j hj; simp at hj
  | cons l ls ih =>
    intro i j hj
    cases j with
    | zero => simp [startVal]
    | succ j =>
      have hj' : j < ls.length := by simpa using hj
      cases ls with
      | nil => simp at hj'
      | cons l2 ls2 =>
        simp only [nextStarts, List.getElem?_cons_succ, startVal]
        exact ih (i + l.length + k) j hj'

theorem startVal_succ (k : Nat) :
    ∀ (ls : List (List Char)) (i j : Nat), j + 1 < ls.length →
      startVal k i ls (j + 1) = startVal k i ls j + (ls.getD j []).length + k := by
  intro ls
  induction ls with
  | nil => intro i j hj; simp at hj
  | cons l ls ih =>
    intro i j hj
    cases j with
    | zero =>
      simp [startVal]
    | succ j =>
      have hj' : j + 1 < ls.length := by simpa using hj
      simp only [startVal, List.getD_cons_succ]
      exact ih (i + l.length + k) j hj'

theorem lineStartTable_joinWith (pre : List Char) (hpre : lineBreakChar ∉ pre)
    (ls : List (List Char)) (h : ∀ l ∈ ls, lineBreakChar ∉ l) :
    lineStartTable (joinWith (pre ++ [lineBreakChar]) ls) =
      0 :: nextStarts (pre.length + 1) 0 ls := by
  rw [lineStartTable, lineStartsAux_joinWith pre hpre ls h 0]

end CssCore

namespace CssCore

/-- `find` on joined content: position `c` inside line `j` (including the
position right after the line, where the separator begins) maps to
line `j+1`, column `c+1`, for any separator length `k ≥ 1`. -/
theorem find_joined (k : Nat) (hk : 1 ≤ k) (text : List Char)
    (ls : List (List Char))
    (htab : lineStartTable text = 0 :: nextStarts k 0 ls) (j c : Nat)
    (hj : j < ls.length) (hc : c ≤ (ls.getD j []).length) :
    (createLineTable text).find (startVal k 0 ls j + c) = ⟨j + 1, c + 1⟩ ∧
    (lineStartTable text).getD j 0 = startVal k 0 ls j := by
  have hTlen : (lineStartTable text).length = ls.length := by
    rw [htab]
    simp only [List.length_cons, nextStarts_length]
    omega
  have hTj? : (lineStartTable text)[j]? = some (startVal k 0 ls j) := by
    rw [htab]
    exact nextStarts_getElem k ls 0 j hj
  have hjT : j < (lineStartTable text).length := by omega
  have hTj : (lineStartTable text)[j] = startVal k 0 ls j := by
    have := (List.getElem?_eq_getElem hjT).symm.trans hTj?
    exact Option.some.inj this
  have hsorted : (lineStartTable text).Sorted (· < ·) := lineStartTable_sorted text
  have hjrank : j < rank (lineStartTable text) (startVal k 0 ls j + c) :=
    (getElem_le_iff_lt_rank (lineStartTable text) (startVal k 0 ls j + c)
      hsorted j hjT).mp (by rw [hTj]; omega)
  have hrank_le : rank (lineStartTable text) (startVal k 0 ls j + c) ≤ j + 1 := by
    by_cases hj1 : j + 1 < (lineStartTable text).length
    · have hj1' : j + 1 < ls.length := by omega
      have hTj1? : (lineStartTable text)[j + 1]? = some (startVal k 0 ls (j + 1)) := by
        rw [htab]
        exact nextStarts_getElem k ls 0 (j + 1) hj1'
      have hTj1 : (lineStartTable text)[j + 1] = startVal k 0 ls (j + 1) := by
        have := (List.getElem?_eq_getElem hj1).symm.trans hTj1?
        exact Option.some.inj this
      have hsucc := startVal_succ k ls 0 j hj1'
      have hgt : ¬((lineStartTable text)[j + 1] ≤ startVal k 0 ls j + c) := by
        rw [hTj1, hsucc]
        omega
      by_contra hn
      exact hgt ((getElem_le_iff_lt_rank (lineStartTable text)
        (startVal k 0 ls j + c) hsorted (j + 1) hj1).mpr (by omega))
    · have := rank_le_length (lineStartTable text) (startVal k 0 ls j + c)
      omega
  have hrank : rank (lineStartTable text) (startVal k 0 ls j + c) = j + 1 := by
    omega
  have hgetD : (lineStartTable text).getD j 0 = startVal k 0 ls j := by
    rw [List.getD_eq_getElem?_getD, hTj?]
    rfl
  refine ⟨?_, hgetD⟩
  have hfind := find_eq_rank text (startVal k 0 ls j + c)
  rw [hfind, hrank]
  have hgd : (lineStartTable text).getD (j + 1 - 1) 0 = startVal k 0 ls j := by
    simpa using hgetD
  rw [hgd]
  have hcol : startVal k 0 ls j + c - startVal k 0 ls j = c := by omega
  rw [hcol]

/-- C4: the line table records a start at offset 0 and exactly after each
`\n` character (`\r` never starts a line); consequently the `\r\n` and
`\n` renderings of the same lines have the same number of line boundaries,
and `find` maps corresponding offsets (position `c` of line `j`, including
the position of a trailing `\r`, which counts as content of its line) to
the same line and column in both renderings. -/
theorem claim4_line_breaks_only_lf (ls : List (List Char))
    (h : ∀ l ∈ ls, lineBreakChar ∉ l) :
    (∀ (text : List Char) (n : Nat), n ∈ lineStartTable text ↔
      (n = 0 ∨ ∃ j, text[j]? = some lineBreakChar ∧ n = j + 1)) ∧
    (lineStartTable (joinWith ['\r', lineBreakChar] ls)).length =
      (lineStartTable (joinWith [lineBreakChar] ls)).length ∧
    (∀ j c, j < ls.length → c ≤ (ls.getD j []).length →
      (createLineTable (joinWith [lineBreakChar] ls)).find
        ((lineStartTable (joinWith [lineBreakChar] ls)).getD j 0 + c) =
        ⟨j + 1, c + 1⟩ ∧
      (createLineTable (joinWith ['\r', lineBreakChar] ls)).find
        ((lineStartTable (joinWith ['\r', lineBreakChar] ls)).getD j 0 + c) =
        ⟨j + 1, c + 1⟩) := by
  have htabN : lineStartTable (joinWith [lineBreakChar] ls) =
      0 :: nextStarts 1 0 ls := by
    have := lineStartTable_joinWith [] (by simp) ls h
    simpa using this
  have htabRN : lineStartTable (joinWith ['\r', lineBreakChar] ls) =
      0 :: nextStarts 2 0 ls := by
    have := lineStartTable_joinWith ['\r'] (by decide) ls h
    simpa using this
  refine ⟨mem_lineStartTable, ?_, ?_⟩
  · rw [htabN, htabRN]
    simp [nextStarts_length]
  · intro j c hj hc
    obtain ⟨hfindN, hgetN⟩ :=
      find_joined 1 (by omega) (joinWith [lineBreakChar] ls) ls htabN j c hj hc
    obtain ⟨hfindRN, hgetRN⟩ :=
      find_joined 2 (by omega) (joinWith ['\r', lineBreakChar] ls) ls htabRN j c hj hc
    constructor
    · rw [hgetN]; exact hfindN
    · rw [hgetRN]; exact hfindRN

/-- Closed instance of C4 at concrete two-line content: offset 2 (the end
of line 1, where the `\r` sits in the Windows rendering) maps to line 1,
column 3 in both renderings. -/
theorem claim4_line_breaks_only_lf_witness :
    (createLineTable (joinWith [lineBreakChar] ["ab".data, "c".data])).find
      ((lineStartTable (joinWith [lineBreakChar] ["ab".data, "c".data])).getD 0 0 + 2) =
      ⟨1, 3⟩ ∧
    (createLineTable (joinWith ['\r', lineBreakChar] ["ab".data, "c".data])).find
      ((lineStartTable (joinWith ['\r', lineBreakChar] ["ab".data, "c".data])).getD 0 0 + 2) =
      ⟨1, 3⟩ :=
  (claim4_line_breaks_only_lf ["ab".data, "c".data] (by decide)).2.2 0 2
    (by decide) (by decide)

end CssCore

namespace CssCore

/-- The dedup filter drops every record: the callback returns `false` for
duplicates and falsy `undefined` for everything else. -/
theorem dedupFilter_eq_nil (ms : List DecodedMapping) :
    ∀ last, dedupFilter last ms = [] := by
  induction ms with
  | nil => intro last; rfl
  | cons m ms ih =>
    intro last
    cases last with
    | none => simpa [dedupFilter] using ih (some m)
    | some l =>
      by_cases h : l.generatedLine = m.generatedLine ∧
          l.generatedColumn = m.generatedColumn
      · simpa [dedupFilter, h] using ih (some l)
      · simpa [dedupFilter, h] using ih (some m)

theorem emitMappings_length (ot gt : LineTable) (groups : List (Option Offsets)) :
    (emitMappings ot gt groups).length = 2 * groups.countP qualifies := by
  induction groups with
  | nil => rfl
  | cons g groups ih =>
    cases g with
    | none => simpa [emitMappings, List.countP_cons, qualifies] using ih
    | some o =>
      cases hdst : o.dst with
      | none =>
        simp only [emitMappings, hdst, List.countP_cons, qualifies, Option.isSome_none]
        simpa [qualifies] using ih
      | some dst =>
        simp only [emitMappings, hdst, List.length_cons, List.countP_cons, qualifies]
        simp only [hdst, Option.isSome_some, ih]
        simp [qualifies]
        omega

theorem emitMappings_mem (ot gt : LineTable) (groups : List (Option Offsets))
    (o : Offsets) (dst : Nat × Nat) (hg : some o ∈ groups) (hdst : o.dst = some dst) :
    ({ generatedLine := (gt.find dst.1).line, generatedColumn := (gt.find dst.1).column,
       originalLine := (ot.find o.src.1).line, originalColumn := (ot.find o.src.1).column,
       originalSource := none, name := none } : DecodedMapping) ∈
        emitMappings ot gt groups ∧
    ({ generatedLine := (gt.find dst.2).line, generatedColumn := (gt.find dst.2).column,
       originalLine := (ot.find o.src.2).line, originalColumn := (ot.find o.src.2).column,
       originalSource := none, name := none } : DecodedMapping) ∈
        emitMappings ot gt groups := by
  induction groups with
  | nil => simp at hg
  | cons g groups ih =>
    rcases List.mem_cons.mp hg with hg | hg
    · subst hg
      simp only [emitMappings, hdst]
      constructor
      · exact List.mem_cons_self _ _
      · exact List.mem_cons.mpr (Or.inr (List.mem_cons_self _ _))
    · have ⟨h1, h2⟩ := ih hg
      cases g with
      | none => exact ⟨h1, h2⟩
      | some o2 =>
        cases hdst2 : o2.dst with
        | none => simpa [emitMappings, hdst2] using ⟨h1, h2⟩
        | some dst2 =>
          simp only [emitMappings, hdst2]
          exact ⟨List.mem_cons.mpr (Or.inr (List.mem_cons.mpr (Or.inr h1))),
            List.mem_cons.mpr (Or.inr (List.mem_cons.mpr (Or.inr h2)))⟩

theorem emitMappings_null_fields (ot gt : LineTable) (groups : List (Option Offsets)) :
    (emitMappings ot gt groups).all
      (fun m => m.originalSource.isNone && m.name.isNone) = true := by
  induction groups with
  | nil => rfl
  | cons g groups ih =>
    cases g with
    | none => simpa [emitMappings] using ih
    | some o =>
      cases hdst : o.dst with
      | none => simpa [emitMappings, hdst] using ih
      | some dst => simpa [emitMappings, hdst] using ih

theorem sortMappings_subset (ms : List DecodedMapping) :
    ∀ m ∈ sortMappings ms, m ∈ ms := by
  have hins : ∀ (x : DecodedMapping) (l : List DecodedMapping) (m : DecodedMapping),
      m ∈ insertSorted x l → m = x ∨ m ∈ l := by
    intro x l
    induction l with
    | nil =>
      intro m hm
      simp only [insertSorted, List.mem_singleton] at hm
      exact Or.inl hm
    | cons y ys ih =>
      intro m hm
      simp only [insertSorted] at hm
      by_cases hlt : mappingLt y x
      · rw [if_pos hlt] at hm
        rcases List.mem_cons.mp hm with h | h
        · exact Or.inr (List.mem_cons.mpr (Or.inl h))
        · rcases ih m h with h2 | h2
          · exact Or.inl h2
          · exact Or.inr (List.mem_cons.mpr (Or.inr h2))
      · rw [if_neg hlt] at hm
        rcases List.mem_cons.mp hm with h | h
        · exact Or.inl h
        · exact Or.inr h
  induction ms with
  | nil => intro m hm; simp [sortMappings] at hm
  | cons x xs ih =>
    intro m hm
    simp only [sortMappings] at hm
    rcases hins x (sortMappings xs) m hm with rfl | h
    · simp
    · exact List.mem_cons.mpr (Or.inr (ih m h))

end CssCore

namespace CssCore

/-- C1: FALSIFIED BY THE CODE. The mappings of the returned map are meant
to be sorted by generated position and deduplicated keeping the first
occurrence, but the filter callback ends in a bare `return` (undefined,
falsy), so every record — duplicate or not — is removed: `mappings` is
always `[]`. At the concrete input below the sorted pre-filter list holds
two records with distinct generated positions, which the claim says must
survive, yet the returned map holds none. -/
theorem claim1_dedup_filter_drops_everything :
    (∀ (original generated : List Char) (ast : List AstNode),
      (createSourceMap original generated ast).mappings = []) ∧
    sortMappings (emitMappings (createLineTable "hello".data)
        (createLineTable "hello".data)
        (collectGroups [AstNode.comment (some ⟨(0, 5), some (0, 5)⟩)])) =
      [{ generatedLine := 1, generatedColumn := 1, originalLine := 1,
         originalColumn := 1, originalSource := none, name := none },
       { generatedLine := 1, generatedColumn := 6, originalLine := 1,
         originalColumn := 6, originalSource := none, name := none }] ∧
    (createSourceMap "hello".data "hello".data
      [AstNode.comment (some ⟨(0, 5), some (0, 5)⟩)]).mappings = [] := by
  refine ⟨?_, by rfl, by rfl⟩
  intro original generated ast
  simp only [createSourceMap]
  exact dedupFilter_eq_nil _ none

/-- C2: every collected group that is defined and has a `dst` emits exactly
two records — original start paired with generated start and original end
paired with generated end — while undefined groups and groups without a
`dst` are skipped: the emitted list has exactly twice as many records as
there are qualifying groups, and is empty when no group qualifies. -/
theorem claim2_two_records_per_qualifying_group
    (ot gt : LineTable) (groups : List (Option Offsets)) :
    (emitMappings ot gt groups).length = 2 * groups.countP qualifies ∧
    (groups.countP qualifies = 0 → emitMappings ot gt groups = []) ∧
    (∀ o dst, some o ∈ groups → o.dst = some dst →
      ({ generatedLine := (gt.find dst.1).line,
         generatedColumn := (gt.find dst.1).column,
         originalLine := (ot.find o.src.1).line,
         originalColumn := (ot.find o.src.1).column,
         originalSource := none, name := none } : DecodedMapping) ∈
          emitMappings ot gt groups ∧
      ({ generatedLine := (gt.find dst.2).line,
         generatedColumn := (gt.find dst.2).column,
         originalLine := (ot.find o.src.2).line,
         originalColumn := (ot.find o.src.2).column,
         originalSource := none, name := none } : DecodedMapping) ∈
          emitMappings ot gt groups) := by
  refine ⟨emitMappings_length ot gt groups, ?_, ?_⟩
  · intro h0
    have := emitMappings_length ot gt groups
    rw [h0] at this
    simpa using List.length_eq_zero.mp (by omega)
  · intro o dst hg hdst
    exact emitMappings_mem ot gt groups o dst hg hdst

/-- Closed instance of C2: a qualifying group among skipped ones emits its
start and end records. -/
theorem claim2_two_records_per_qualifying_group_witness :
    ({ generatedLine := 1, generatedColumn := 1, originalLine := 1,
       originalColumn := 1, originalSource := none, name := none } : DecodedMapping) ∈
      emitMappings (createLineTable "ab".data) (createLineTable "ab".data)
        [none, some ⟨(0, 2), none⟩, some ⟨(0, 2), some (0, 2)⟩] ∧
    ({ generatedLine := 1, generatedColumn := 3, originalLine := 1,
       originalColumn := 3, originalSource := none, name := none } : DecodedMapping) ∈
      emitMappings (createLineTable "ab".data) (createLineTable "ab".data)
        [none, some ⟨(0, 2), none⟩, some ⟨(0, 2), some (0, 2)⟩] :=
  (claim2_two_records_per_qualifying_group
      (createLineTable "ab".data) (createLineTable "ab".data)
      [none, some ⟨(0, 2), none⟩, some ⟨(0, 2), some (0, 2)⟩]).2.2
    ⟨(0, 2), some (0, 2)⟩ (0, 2) (by decide) (by rfl)

/-- C9: the returned decoded map has `file = null`, exactly one synthetic
source `{url: null, content: null, ignore: false}`, and every mapping
record — both in the returned list and in the emitted list it is drawn
from — has `originalSource = null` and `name = null` (the record type
carries exactly the six decoded-mapping fields). -/
theorem claim9_decoded_map_shape
    (original generated : List Char) (ast : List AstNode) :
    (createSourceMap original generated ast).file = none ∧
    (createSourceMap original generated ast).sources =
      [{ url := none, content := none, ignore := false }] ∧
    ((createSourceMap original generated ast).mappings.all
      (fun m => m.originalSource.isNone && m.name.isNone)) = true ∧
    (emitMappings (createLineTable original) (createLineTable generated)
      (collectGroups ast)).all
      (fun m => m.originalSource.isNone && m.name.isNone) = true := by
  refine ⟨rfl, rfl, ?_, emitMappings_null_fields _ _ _⟩
  simp only [createSourceMap]
  rw [dedupFilter_eq_nil]
  rfl

end CssCore

namespace CssCore

/-- The field names present on any node are pairwise distinct (they come
from distinct object keys). -/
theorem offsets_keys_nodup (node : AstNode) :
    ((AstNode.offsets node).map Prod.fst).Nodup := by
  cases node with
  | comment v => cases v <;> simp [AstNode.offsets, offsetEntry]
  | declaration p v =>
    cases p <;> cases v <;> simp [AstNode.offsets, offsetEntry]
  | rule s b ns =>
    cases s <;> cases b <;> simp [AstNode.offsets, offsetEntry]
  | atRule n p b ns =>
    cases n <;> cases p <;> cases b <;> simp [AstNode.offsets, offsetEntry]
  | atRoot b ns => cases b <;> simp [AstNode.offsets, offsetEntry]

/-- Folding JS record assignment over entries with fresh, pairwise distinct
keys appends one record per entry, in order. -/
theorem foldl_recordSet_eq_map (f : Offsets → Translation) :
    ∀ (entries : List (String × Offsets)) (acc : List (String × Translation)),
      (acc.map Prod.fst ++ entries.map Prod.fst).Nodup →
      entries.foldl (fun m e => recordSet m e.1 (f e.2)) acc =
        acc ++ entries.map (fun e => (e.1, f e.2)) := by
  intro entries
  induction entries with
  | nil => intro acc h; simp
  | cons e rest ih =>
    intro acc h
    have hk : e.1 ∉ acc.map Prod.fst := by
      intro hmem
      rcases List.nodup_append.mp h with ⟨_, _, hdisj⟩
      exact hdisj hmem (by simp)
    have hany : ¬(acc.any (fun p => p.1 = e.1) = true) := by
      simp only [List.any_eq_true, decide_eq_true_eq]
      rintro ⟨p, hp, hpk⟩
      exact hk (hpk ▸ List.mem_map_of_mem Prod.fst hp)
    have hrs : recordSet acc e.1 (f e.2) = acc ++ [(e.1, f e.2)] := by
      rw [recordSet, if_neg hany]
    have hkeys : ((acc ++ [(e.1, f e.2)]).map Prod.fst ++
        rest.map Prod.fst).Nodup := by
      have heq : (acc ++ [(e.1, f e.2)]).map Prod.fst ++ rest.map Prod.fst =
          acc.map Prod.fst ++ (e :: rest).map Prod.fst := by
        simp
      rw [heq]
      exact h
    rw [List.foldl_cons, hrs, ih (acc ++ [(e.1, f e.2)]) hkeys]
    simp

/-- Looking up a present key in the mapped entry list finds its value,
when keys are pairwise distinct. -/
theorem lookup_map_of_nodup (f : Offsets → Translation) :
    ∀ (entries : List (String × Offsets)) (fieldName : String) (off : Offsets),
      (entries.map Prod.fst).Nodup → (fieldName, off) ∈ entries →
      (entries.map (fun e => (e.1, f e.2))).lookup fieldName = some (f off) := by
  intro entries
  induction entries with
  | nil => intro fieldName off _ hmem; simp at hmem
  | cons e rest ih =>
    intro fieldName off hnodup hmem
    obtain ⟨k, o⟩ := e
    have hnodup2 : (k :: rest.map Prod.fst).Nodup := by simpa using hnodup
    have hkeys := List.nodup_cons.mp hnodup2
    rcases List.mem_cons.mp hmem with heq | hmem2
    · obtain ⟨hk, ho⟩ : fieldName = k ∧ off = o := by
        simpa [Prod.ext_iff] using heq
      subst hk
      subst ho
      simp [List.lookup]
    · have hne : fieldName ≠ k := by
        intro hfk
        exact hkeys.1 (hfk ▸ List.mem_map_of_mem Prod.fst hmem2)
      have hbeq : (fieldName == k) = false := beq_eq_false_iff_ne.mpr hne
      have hrec := ih fieldName off hkeys.2 hmem2
      simpa [List.lookup, hbeq] using hrec

end CssCore

namespace CssCore

/-- C5: for every pair of texts and every node, the function returned by
`createTranslationMap` maps each named offset field of the node to a
4-tuple whose first two entries are the original table's positions of the
field's `src` start and end, and whose last two entries are the generated
table's positions of the `dst` start and end when `dst` is present, and
are `none` exactly when `dst` is absent. -/
theorem claim5_translation_map_entries
    (original generated : List Char) (node : AstNode)
    (fieldName : String) (off : Offsets)
    (hmem : (fieldName, off) ∈ node.offsets) :
    ∃ t, (createTranslationMap original generated node).lookup fieldName = some t ∧
      t.originalStart = (createLineTable original).find off.src.1 ∧
      t.originalEnd = (createLineTable original).find off.src.2 ∧
      (∀ d, off.dst = some d →
        t.generatedStart = some ((createLineTable generated).find d.1) ∧
        t.generatedEnd = some ((createLineTable generated).find d.2)) ∧
      (t.generatedStart = none ↔ off.dst = none) ∧
      (t.generatedEnd = none ↔ off.dst = none) := by
  have hnodup := offsets_keys_nodup node
  have hfold := foldl_recordSet_eq_map
    (translationOf (createLineTable original) (createLineTable generated))
    node.offsets [] (by simpa using hnodup)
  refine ⟨translationOf (createLineTable original) (createLineTable generated) off,
    ?_, ?_, ?_, ?_, ?_, ?_⟩
  · have hlook := lookup_map_of_nodup
      (translationOf (createLineTable original) (createLineTable generated))
      node.offsets fieldName off hnodup hmem
    simp only [createTranslationMap]
    rw [hfold]
    simpa using hlook
  · rfl
  · rfl
  · intro d hd
    simp [translationOf, hd]
  · cases hdst : off.dst <;> simp [translationOf, hdst]
  · cases hdst : off.dst <;> simp [translationOf, hdst]

/-- Closed instance of C5 at a concrete declaration node whose `value`
field has a `dst` range. -/
theorem claim5_translation_map_entries_witness :
    ∃ t, (createTranslationMap "abcdefgh".data "xyzw".data
        (AstNode.declaration (some ⟨(0, 3), none⟩)
          (some ⟨(5, 8), some (1, 4)⟩))).lookup "value" = some t ∧
      t.originalStart = (createLineTable "abcdefgh".data).find 5 ∧
      t.originalEnd = (createLineTable "abcdefgh".data).find 8 ∧
      (∀ d, (some ((1 : Nat), (4 : Nat)) : Option (Nat × Nat)) = some d →
        t.generatedStart = some ((createLineTable "xyzw".data).find d.1) ∧
        t.generatedEnd = some ((createLineTable "xyzw".data).find d.2)) ∧
      (t.generatedStart = none ↔ (some ((1 : Nat), (4 : Nat)) : Option (Nat × Nat)) = none) ∧
      (t.generatedEnd = none ↔ (some ((1 : Nat), (4 : Nat)) : Option (Nat × Nat)) = none) :=
  claim5_translation_map_entries "abcdefgh".data "xyzw".data
    (AstNode.declaration (some ⟨(0, 3), none⟩) (some ⟨(5, 8), some (1, 4)⟩))
    "value" ⟨(5, 8), some (1, 4)⟩ (by decide)

end CssCore

namespace CssCore

/-- C6: reaching end of input with an open block fails with
`UnbalancedClosingBrace` whose message contains the still-open block's
selector/prelude; a quoted literal reaching end of input or a line break
without its closing quote fails with `UnterminatedString` whose message
contains the opening quote plus the content scanned so far; in particular
parsing `".foo \x7b\n color: red;\n"` reports an error naming `.foo`, and
parsing `"content: \"abc"` reports an unterminated string containing
`"abc`. -/
theorem claim6_parse_error_reporting :
    (∀ (fuel : Nat) (buffer : List Char) (frame : Frame)
        (stackRest : List Frame) (nodes : List CNode) (licenses : List String),
      ∃ msg, parseGo (fuel + 1) [] buffer (frame :: stackRest) nodes licenses =
          Except.error (ParseError.unbalancedClosingBrace msg) ∧
        ∃ pre post, msg.data = pre ++ frame.selector ++ post) ∧
    (∀ (q : Char) (acc : List Char),
      ∃ msg, scanString q acc [] =
          Except.error (ParseError.unterminatedString msg) ∧
        ∃ pre post, msg.data = pre ++ (q :: acc) ++ post) ∧
    (∀ (q : Char) (acc rest : List Char), q ≠ lineBreakChar →
      ∃ msg, scanString q acc (lineBreakChar :: rest) =
          Except.error (ParseError.unterminatedString msg) ∧
        ∃ pre post, msg.data = pre ++ (q :: acc) ++ post) ∧
    (∃ msg, parse ".foo \x7b\n color: red;\n" =
        Except.error (ParseError.unbalancedClosingBrace msg) ∧
      ∃ pre post, msg.data = pre ++ ".foo".data ++ post) ∧
    (∃ msg, parse "content: \"abc" =
        Except.error (ParseError.unterminatedString msg) ∧
      ∃ pre post, msg.data = pre ++ ('"' :: "abc".data) ++ post) := by
  refine ⟨?_, ?_, ?_, ?_, ?_⟩
  · intro fuel buffer frame stackRest nodes licenses
    refine ⟨String.mk ("Missing closing \x7d at ".data ++ frame.selector),
      by simp [parseGo, parseBody], "Missing closing \x7d at ".data, [], by simp⟩
  · intro q acc
    refine ⟨unterminatedMessage q acc, by simp [scanString],
      "Unterminated string: ".data, [q], ?_⟩
    simp [unterminatedMessage]
  · intro q acc rest hq
    have hnq : ¬(lineBreakChar = q) := fun h => hq h.symm
    have hnb : lineBreakChar ≠ '\\' := by decide
    refine ⟨unterminatedMessage q acc, ?_,
      "Unterminated string: ".data, [q], by simp [unterminatedMessage]⟩
    cases rest with
    | nil => simp [scanString, hnq]
    | cons c2 rest2 => simp [scanString, hnq]
  · exact ⟨"Missing closing \x7d at .foo",
      by rfl, "Missing closing \x7d at ".data, [], by rfl⟩
  · exact ⟨"Unterminated string: \"abc\"",
      by rfl, "Unterminated string: ".data, ['"'], by rfl⟩

/-- Closed instance of C6's line-break clause at a concrete quote and
content. -/
theorem claim6_parse_error_reporting_witness :
    ∃ msg, scanString '"' "ab".data (lineBreakChar :: []) =
        Except.error (ParseError.unterminatedString msg) ∧
      ∃ pre post, msg.data = pre ++ ('"' :: "ab".data) ++ post :=
  claim6_parse_error_reporting.2.2.1 '"' "ab".data [] (by decide)

end CssCore

namespace CssCore

theorem parseDeclarationBuffer_comment_free (t : List Char) :
    CommentFree (parseDeclarationBuffer t) := by
  rw [parseDeclarationBuffer]
  cases splitAtColon t with
  | none => exact CommentFree.declaration _ _ _
  | some p => exact CommentFree.declaration _ _ _

theorem parseAtRuleBuffer_comment_free_none (t : List Char) :
    CommentFree (parseAtRuleBuffer t none) := by
  rw [parseAtRuleBuffer]
  exact CommentFree.atRuleNone _ _

theorem parseAtRuleBuffer_comment_free_some (t : List Char) (kids : List CNode)
    (hk : ∀ n ∈ kids, CommentFree n) :
    CommentFree (parseAtRuleBuffer t (some kids)) := by
  rw [parseAtRuleBuffer]
  exact CommentFree.atRuleSome _ _ _ hk

theorem flushBuffer_comment_free (buffer : List Char) (nodes : List CNode)
    (h : ∀ n ∈ nodes, CommentFree n) :
    ∀ n ∈ flushBuffer buffer nodes, CommentFree n := by
  intro n hn
  rw [flushBuffer] at hn
  by_cases h1 : trimSpace buffer = []
  · rw [if_pos h1] at hn
    exact h n hn
  · rw [if_neg h1] at hn
    by_cases h2 : (trimSpace buffer).head? = some '@'
    · rw [if_pos h2] at hn
      rcases List.mem_append.mp hn with hn | hn
      · exact h n hn
      · rw [List.mem_singleton.mp hn]
        exact parseAtRuleBuffer_comment_free_none _
    · rw [if_neg h2] at hn
      rcases List.mem_append.mp hn with hn | hn
      · exact h n hn
      · rw [List.mem_singleton.mp hn]
        exact parseDeclarationBuffer_comment_free _

end CssCore

namespace CssCore

theorem parseBody_ok_invariant
    (next : List Char → List Char → List Frame → List CNode → List String →
      Except ParseError (List String × List CNode))
    (hnext : ∀ (cs buffer : List Char) (stack : List Frame) (nodes : List CNode)
      (licenses lics : List String) (out : List CNode),
      (∀ f ∈ stack, ∀ n ∈ f.nodes, CommentFree n) →
      (∀ n ∈ nodes, CommentFree n) →
      (∀ v ∈ licenses, v.data.head? = some '!') →
      next cs buffer stack nodes licenses = Except.ok (lics, out) →
      (∀ v ∈ lics, v.data.head? = some '!') ∧ (∀ n ∈ out, CommentFree n)) :
    ∀ (cs buffer : List Char) (stack : List Frame) (nodes : List CNode)
      (licenses lics : List String) (out : List CNode),
      (∀ f ∈ stack, ∀ n ∈ f.nodes, CommentFree n) →
      (∀ n ∈ nodes, CommentFree n) →
      (∀ v ∈ licenses, v.data.head? = some '!') →
      parseBody next cs buffer stack nodes licenses = Except.ok (lics, out) →
      (∀ v ∈ lics, v.data.head? = some '!') ∧ (∀ n ∈ out, CommentFree n) := by
  intro cs buffer stack nodes licenses lics out hstack hnodes hlic heq
  rw [parseBody.eq_def] at heq
  split at heq
  · -- end of input
    split at heq
    · simp at heq
    · simp only [Except.ok.injEq, Prod.mk.injEq] at heq
      obtain ⟨h1, h2⟩ := heq
      subst h1
      subst h2
      exact ⟨hlic, flushBuffer_comment_free buffer nodes hnodes⟩
  · -- backslash escape
    exact hnext _ _ _ _ _ _ _ hstack hnodes hlic heq
  · -- comment
    simp only [] at heq
    refine hnext _ _ _ _ _ _ _ hstack hnodes ?_ heq
    intro v hv
    split at hv
    · rcases List.mem_append.mp hv with h | h
      · exact hlic v h
      · rw [List.mem_singleton.mp h]
        assumption
    · exact hlic v hv
  · -- single-quoted string, scan failed
    split at heq
    · simp at heq
    · exact hnext _ _ _ _ _ _ _ hstack hnodes hlic heq
  · -- double-quoted string
    split at heq
    · simp at heq
    · exact hnext _ _ _ _ _ _ _ hstack hnodes hlic heq
  · -- colon
    split at heq
    · refine hnext _ _ _ _ _ _ _ hstack ?_ hlic heq
      intro n hn
      rcases List.mem_append.mp hn with h | h
      · exact hnodes n h
      · rw [List.mem_singleton.mp h]
        exact CommentFree.declaration _ _ _
    · exact hnext _ _ _ _ _ _ _ hstack hnodes hlic heq
  · -- semicolon
    exact hnext _ _ _ _ _ _ _ hstack
      (flushBuffer_comment_free buffer nodes hnodes) hlic heq
  · -- opening brace
    refine hnext _ _ _ _ _ _ _ ?_ (by simp) hlic heq
    intro f hf
    rcases List.mem_cons.mp hf with h | h
    · rw [h]
      exact hnodes
    · exact hstack f h
  · -- closing brace
    split at heq
    · simp at heq
    rename_i frame stackRest
    refine hnext _ _ _ _ _ _ _ (fun f hf => hstack f (List.mem_cons_of_mem _ hf))
      ?_ hlic heq
    intro n hn
    rcases List.mem_append.mp hn with h | h
    · exact hstack _ (List.mem_cons_self _ _) n h
    · rw [List.mem_singleton.mp h]
      split
      · exact parseAtRuleBuffer_comment_free_some _ _
          (flushBuffer_comment_free buffer nodes hnodes)
      · exact CommentFree.rule _ _ (flushBuffer_comment_free buffer nodes hnodes)
  · -- any other character
    exact hnext _ _ _ _ _ _ _ hstack hnodes hlic heq

end CssCore

namespace CssCore

theorem parseGo_ok_invariant :
    ∀ (fuel : Nat) (cs buffer : List Char) (stack : List Frame)
      (nodes : List CNode) (licenses lics : List String) (out : List CNode),
      (∀ f ∈ stack, ∀ n ∈ f.nodes, CommentFree n) →
      (∀ n ∈ nodes, CommentFree n) →
      (∀ v ∈ licenses, v.data.head? = some '!') →
      parseGo fuel cs buffer stack nodes licenses = Except.ok (lics, out) →
      (∀ v ∈ lics, v.data.head? = some '!') ∧ (∀ n ∈ out, CommentFree n) := by
  intro fuel
  induction fuel with
  | zero =>
    intro cs buffer stack nodes licenses lics out _ _ _ heq
    simp [parseGo] at heq
  | succ fuel ih =>
    intro cs buffer stack nodes licenses lics out hstack hnodes hlic heq
    rw [parseGo] at heq
    exact parseBody_ok_invariant (parseGo fuel) ih cs buffer stack nodes
      licenses lics out hstack hnodes hlic heq

theorem parse_ok_shape (css : String) (ast : List CNode)
    (h : parse css = Except.ok ast) :
    ∃ (lics : List String) (rest : List CNode),
      ast = lics.map (fun v => CNode.comment v) ++ rest ∧
      (∀ v ∈ lics, v.data.head? = some '!') ∧
      (∀ n ∈ rest, CommentFree n) := by
  rw [parse] at h
  cases hgo : parseGo (css.data.length + 1) css.data [] [] [] [] with
  | error e => rw [hgo] at h; simp at h
  | ok p =>
    obtain ⟨lics, nodes⟩ := p
    rw [hgo] at h
    simp only [Except.ok.injEq] at h
    subst h
    obtain ⟨h1, h2⟩ := parseGo_ok_invariant (css.data.length + 1) css.data [] [] []
      [] lics nodes (by simp) (by simp) (by simp) hgo
    exact ⟨lics, nodes, rfl, h1, h2⟩

end CssCore

namespace CssCore

/-- C8: for every input that parses successfully, the resulting AST is a
list of hoisted license comments (values starting with `!`, in collection
order) followed by nodes containing no comment at any depth — so every
non-license comment is absent and license comments sit at the document
root; the concrete example shows two license comments, one nested inside a
rule body, hoisted to the root in original document order while the plain
comment disappears. -/
theorem claim8_comment_policy :
    (∀ (css : String) (ast : List CNode), parse css = Except.ok ast →
      ∃ (lics : List String) (rest : List CNode),
        ast = lics.map (fun v => CNode.comment v) ++ rest ∧
        (∀ v ∈ lics, v.data.head? = some '!') ∧
        (∀ n ∈ rest, CommentFree n)) ∧
    parse "/* plain */ .foo \x7b color: red; /*! L1 */ \x7d /*! L2 */" =
      Except.ok [CNode.comment "! L1 ", CNode.comment "! L2 ",
        CNode.rule ".foo" [CNode.declaration "color" "red" false]] :=
  ⟨parse_ok_shape, by rfl⟩

/-- Closed instance of C8's general clause at the concrete example. -/
theorem claim8_comment_policy_witness :
    ∃ (lics : List String) (rest : List CNode),
      [CNode.comment "! L1 ", CNode.comment "! L2 ",
        CNode.rule ".foo" [CNode.declaration "color" "red" false]] =
        lics.map (fun v => CNode.comment v) ++ rest ∧
      (∀ v ∈ lics, v.data.head? = some '!') ∧
      (∀ n ∈ rest, CommentFree n) :=
  claim8_comment_policy.1
    "/* plain */ .foo \x7b color: red; /*! L1 */ \x7d /*! L2 */"
    [CNode.comment "! L1 ", CNode.comment "! L2 ",
      CNode.rule ".foo" [CNode.declaration "color" "red" false]] (by rfl)

end CssCore

namespace CssCore

theorem scanRawValue_normal_plain (acc : List Char) (d : Nat) (c : Char)
    (rest : List Char) (h : c ∉ rawNormalSpecials) :
    scanRawValue acc d .rawNormal (c :: rest) =
      scanRawValue (acc ++ [c]) d .rawNormal rest := by
  simp only [rawNormalSpecials, List.mem_cons, List.mem_singleton] at h
  push_neg at h
  obtain ⟨h1, h2, h3, h4, h5, h6, h7⟩ := h
  rw [scanRawValue.eq_def]
  split
  all_goals simp_all

end CssCore

namespace CssCore

theorem scanRawValue_comment_step (acc : List Char) (d : Nat) (c : Char)
    (rest : List Char) (h1 : c ≠ '*') (h2 : c ≠ '\\') :
    scanRawValue acc d .rawComment (c :: rest) =
      scanRawValue (acc ++ [c]) d .rawComment rest := by
  rw [scanRawValue.eq_def]
  split
  all_goals simp_all

theorem scanRawValue_string_step (acc : List Char) (d : Nat) (q c : Char)
    (rest : List Char) (hq : c ≠ q) (hb : c ≠ '\\') :
    scanRawValue acc d (.rawString q) (c :: rest) =
      scanRawValue (acc ++ [c]) d (.rawString q) rest := by
  rw [scanRawValue.eq_def]
  split
  all_goals simp_all

theorem scanRawValue_string_close (acc : List Char) (d : Nat) (q : Char)
    (rest : List Char) (hq : q ≠ '\\') :
    scanRawValue acc d (.rawString q) (q :: rest) =
      scanRawValue (acc ++ [q]) d .rawNormal rest := by
  rw [scanRawValue.eq_def]
  split
  all_goals simp_all

theorem scanRawValue_copies_comment (body : List Char) :
    '*' ∉ body → '\\' ∉ body → ∀ (acc : List Char) (d : Nat) (rest : List Char),
    scanRawValue acc d .rawComment (body ++ '*' :: '/' :: rest) =
      scanRawValue (acc ++ body ++ ['*', '/']) d .rawNormal rest := by
  induction body with
  | nil =>
    intro _ _ acc d rest
    simp [scanRawValue]
  | cons c body ih =>
    intro hs hb acc d rest
    have hc1 : c ≠ '*' := fun h => hs (h ▸ List.mem_cons_self c body)
    have hc2 : c ≠ '\\' := fun h => hb (h ▸ List.mem_cons_self c body)
    rw [List.cons_append, scanRawValue_comment_step acc d c _ hc1 hc2,
      ih (fun h => hs (List.mem_cons_of_mem c h))
        (fun h => hb (List.mem_cons_of_mem c h)) (acc ++ [c]) d rest]
    simp

theorem scanRawValue_copies_string (q : Char) (hqb : q ≠ '\\')
    (body : List Char) :
    q ∉ body → '\\' ∉ body → ∀ (acc : List Char) (d : Nat) (rest : List Char),
    scanRawValue acc d (.rawString q) (body ++ q :: rest) =
      scanRawValue (acc ++ body ++ [q]) d .rawNormal rest := by
  induction body with
  | nil =>
    intro _ _ acc d rest
    simpa using scanRawValue_string_close acc d q rest hqb
  | cons c body ih =>
    intro hs hb acc d rest
    have hc1 : c ≠ q := fun h => hs (h ▸ List.mem_cons_self c body)
    have hc2 : c ≠ '\\' := fun h => hb (h ▸ List.mem_cons_self c body)
    rw [List.cons_append, scanRawValue_string_step acc d q c _ hc1 hc2,
      ih (fun h => hs (List.mem_cons_of_mem c h))
        (fun h => hb (List.mem_cons_of_mem c h)) (acc ++ [c]) d rest]
    simp

end CssCore

namespace CssCore

theorem scanRawValue_copies_list (ps : List RawPiece)
    (hps : ∀ p ∈ ps, ∀ (acc : List Char) (d : Nat) (rest : List Char),
      scanRawValue acc (d + 1) .rawNormal (renderPieces.renderOne p ++ rest) =
        scanRawValue (acc ++ renderPieces.renderOne p) (d + 1) .rawNormal rest) :
    ∀ (acc : List Char) (d : Nat) (rest : List Char),
      scanRawValue acc (d + 1) .rawNormal (renderPieces ps ++ rest) =
        scanRawValue (acc ++ renderPieces ps) (d + 1) .rawNormal rest := by
  induction ps with
  | nil => intro acc d rest; simp [renderPieces]
  | cons p ps ih =>
    intro acc d rest
    rw [renderPieces, List.append_assoc,
      hps p (List.mem_cons_self p ps) acc d _,
      ih (fun p2 hp2 => hps p2 (List.mem_cons_of_mem p hp2)) (acc ++ renderPieces.renderOne p) d rest]
    simp

theorem scanRawValue_copies_piece (p : RawPiece) (hp : GoodPiece p) :
    ∀ (acc : List Char) (d : Nat) (rest : List Char),
      scanRawValue acc (d + 1) .rawNormal (renderPieces.renderOne p ++ rest) =
        scanRawValue (acc ++ renderPieces.renderOne p) (d + 1) .rawNormal rest := by
  induction hp with
  | plain c hc =>
    intro acc d rest
    exact scanRawValue_normal_plain acc (d + 1) c rest hc
  | escaped c =>
    intro acc d rest
    rfl
  | semi =>
    intro acc d rest
    rfl
  | commentPiece body hs hb =>
    intro acc d rest
    have hstep : scanRawValue acc (d + 1) .rawNormal
        (renderPieces.renderOne (.commentPiece body) ++ rest) =
        scanRawValue (acc ++ ['/', '*']) (d + 1) .rawComment
          (body ++ '*' :: '/' :: rest) := by
      show scanRawValue acc (d + 1) .rawNormal
        (('/' :: '*' :: (body ++ ['*', '/'])) ++ rest) = _
      simp only [List.cons_append, List.append_assoc, List.singleton_append]
      rfl
    rw [hstep, scanRawValue_copies_comment body hs hb (acc ++ ['/', '*']) (d + 1) rest]
    simp [renderPieces.renderOne]
  | stringPiece q body hq hqb hbb =>
    intro acc d rest
    have hqslash : q ≠ '\\' := by
      rcases hq with rfl | rfl <;> decide
    have hstep : scanRawValue acc (d + 1) .rawNormal
        (renderPieces.renderOne (.stringPiece q body) ++ rest) =
        scanRawValue (acc ++ [q]) (d + 1) (.rawString q) (body ++ q :: rest) := by
      show scanRawValue acc (d + 1) .rawNormal ((q :: (body ++ [q])) ++ rest) = _
      simp only [List.cons_append, List.append_assoc, List.singleton_append]
      rcases hq with rfl | rfl <;> rfl
    rw [hstep, scanRawValue_copies_string q hqslash body hqb hbb (acc ++ [q]) (d + 1) rest]
    simp [renderPieces.renderOne]
  | blockPiece inner hinner ih =>
    intro acc d rest
    have hopen : scanRawValue acc (d + 1) .rawNormal
        (renderPieces.renderOne (.blockPiece inner) ++ rest) =
        scanRawValue (acc ++ ['{']) ((d + 1) + 1) .rawNormal
          (renderPieces inner ++ '}' :: rest) := by
      show scanRawValue acc (d + 1) .rawNormal
        (('{' :: (renderPieces inner ++ ['}'])) ++ rest) = _
      simp only [List.cons_append, List.append_assoc, List.singleton_append]
      rfl
    rw [hopen, scanRawValue_copies_list inner ih (acc ++ ['{']) (d + 1) ('}' :: rest)]
    have hclose : scanRawValue (acc ++ ['{'] ++ renderPieces inner) ((d + 1) + 1)
        .rawNormal ('}' :: rest) =
        scanRawValue (acc ++ ['{'] ++ renderPieces inner ++ ['}']) (d + 1)
          .rawNormal rest := rfl
    rw [hclose]
    simp [renderPieces.renderOne]

theorem scanRawValue_captures_block (inner : List RawPiece)
    (h : ∀ p ∈ inner, GoodPiece p) (acc : List Char) (rest : List Char) :
    scanRawValue acc 0 .rawNormal (('{' :: renderPieces inner) ++ '}' :: rest) =
      scanRawValue (acc ++ ('{' :: renderPieces inner) ++ ['}']) 0 .rawNormal rest := by
  simp only [List.cons_append]
  have hopen : scanRawValue acc 0 .rawNormal
      ('{' :: (renderPieces inner ++ '}' :: rest)) =
      scanRawValue (acc ++ ['{']) (0 + 1) .rawNormal
        (renderPieces inner ++ '}' :: rest) := rfl
  rw [hopen, scanRawValue_copies_list inner
    (fun p hp => scanRawValue_copies_piece p (h p hp)) (acc ++ ['{']) 0 ('}' :: rest)]
  have hclose : scanRawValue (acc ++ ['{'] ++ renderPieces inner) (0 + 1) .rawNormal
      ('}' :: rest) =
      scanRawValue (acc ++ ['{'] ++ renderPieces inner ++ ['}']) 0 .rawNormal rest := rfl
  rw [hclose]
  simp

end CssCore

namespace CssCore

theorem trimLeadingSpace_cons_false (c : Char) (l : List Char)
    (h : isSpaceChar c = false) : trimLeadingSpace (c :: l) = c :: l := by
  rw [trimLeadingSpace, h]
  rfl

theorem parseImportant_block (R : List Char) :
    parseImportant (' ' :: ('{' :: R) ++ ['}']) = (('{' :: R) ++ ['}'], false) := by
  have htrim : trimSpace (' ' :: ('{' :: R) ++ ['}']) = ('{' :: R) ++ ['}'] := by
    rw [trimSpace]
    have h1 : trimLeadingSpace (' ' :: ('{' :: R) ++ ['}']) =
        trimLeadingSpace (('{' :: R) ++ ['}']) := by
      rw [List.cons_append, trimLeadingSpace]
      rfl
    have h2 : trimLeadingSpace (('{' :: R) ++ ['}']) = ('{' :: R) ++ ['}'] := by
      rw [List.cons_append]
      exact trimLeadingSpace_cons_false '{' _ (by decide)
    rw [h1, h2]
    have h3 : (('{' :: R) ++ ['}']).reverse = '}' :: (R.reverse ++ ['{']) := by
      simp
    rw [h3, trimLeadingSpace_cons_false '}' _ (by decide)]
    simp
  rw [parseImportant, htrim]
  have hsuf : importantSuffix.isSuffixOf (('{' :: R) ++ ['}']) = false := by
    have hrev : (('{' :: R) ++ ['}']).reverse = '}' :: (R.reverse ++ ['{']) := by
      simp
    rw [List.isSuffixOf, hrev]
    have himp : importantSuffix.reverse = 't' :: "natropmi!".data := by rfl
    rw [himp]
    simp [List.isPrefixOf]
  rw [hsuf]
  rfl

end CssCore

namespace CssCore

theorem parse_captures_custom_property_block (inner : List RawPiece)
    (h : ∀ p ∈ inner, GoodPiece p) :
    parse (String.mk ("--foo: ".data ++ ('{' :: renderPieces inner) ++ ['}', ';'])) =
      Except.ok [CNode.declaration "--foo"
        (String.mk (('{' :: renderPieces inner) ++ ['}'])) false] := by
  have hdata : (String.mk ("--foo: ".data ++ ('{' :: renderPieces inner) ++ ['}', ';'])).data =
      '-' :: '-' :: 'f' :: 'o' :: 'o' :: ':' :: ' ' ::
        (('{' :: renderPieces inner) ++ ['}', ';']) := rfl
  have hlen : ('-' :: '-' :: 'f' :: 'o' :: 'o' :: ':' :: ' ' ::
      (('{' :: renderPieces inner) ++ ['}', ';'])).length =
      (renderPieces inner).length + 10 := by
    simp
  have hscan : scanRawValue [] 0 .rawNormal
      (' ' :: (('{' :: renderPieces inner) ++ ['}', ';'])) =
      ((' ' :: ('{' :: renderPieces inner)) ++ ['}'], []) := by
    have hsp : scanRawValue [] 0 .rawNormal
        (' ' :: (('{' :: renderPieces inner) ++ ['}', ';'])) =
        scanRawValue [' '] 0 .rawNormal
          (('{' :: renderPieces inner) ++ '}' :: [';']) := rfl
    rw [hsp, scanRawValue_captures_block inner h [' '] [';']]
    have hsemi : scanRawValue ([' '] ++ ('{' :: renderPieces inner) ++ ['}']) 0
        .rawNormal [';'] = (([' '] ++ ('{' :: renderPieces inner) ++ ['}']), []) := rfl
    rw [hsemi]
    simp
  have hvi := parseImportant_block (renderPieces inner)
  have hs6 : parseGo ((renderPieces inner).length + 10 + 1)
      ('-' :: '-' :: 'f' :: 'o' :: 'o' :: ':' :: ' ' ::
        (('{' :: renderPieces inner) ++ ['}', ';'])) [] [] [] [] =
      parseGo ((renderPieces inner).length + 5)
        (scanRawValue [] 0 .rawNormal
          (' ' :: (('{' :: renderPieces inner) ++ ['}', ';']))).2 [] []
        [CNode.declaration "--foo"
          (String.mk (parseImportant (scanRawValue [] 0 .rawNormal
            (' ' :: (('{' :: renderPieces inner) ++ ['}', ';']))).1).1)
          (parseImportant (scanRawValue [] 0 .rawNormal
            (' ' :: (('{' :: renderPieces inner) ++ ['}', ';']))).1).2] [] := rfl
  have hgo : parseGo ((renderPieces inner).length + 10 + 1)
      ('-' :: '-' :: 'f' :: 'o' :: 'o' :: ':' :: ' ' ::
        (('{' :: renderPieces inner) ++ ['}', ';'])) [] [] [] [] =
      Except.ok ([], [CNode.declaration "--foo"
        (String.mk (('{' :: renderPieces inner) ++ ['}'])) false]) := by
    rw [hs6, hscan]
    rw [hvi]
    rfl
  rw [parse, hdata, hlen, hgo]
  rfl

end CssCore

namespace CssCore

/-- C7: for every custom-property declaration whose value is a
`\x7b ... \x7d` block — quantified over all block bodies built from plain
characters, escapes, top-level `;`, comments and strings that may freely
contain `;` or `\x7d`, and nested blocks — `parse` captures the block as
raw text verbatim. Concretely: the spec's `\x7b a: 1; /* ; */ b: 2 \x7d`
example; a block whose comment contains `;` and `\x7d` and whose string
contains `;` and `\x7d`; a backslash-escaped `;` not terminating the
value; and `--foo: ;` yielding an empty value. -/
theorem claim7_custom_property_raw_value :
    (∀ (inner : List RawPiece), (∀ p ∈ inner, GoodPiece p) →
      parse (String.mk ("--foo: ".data ++ ('{' :: renderPieces inner) ++ ['}', ';'])) =
        Except.ok [CNode.declaration "--foo"
          (String.mk (('{' :: renderPieces inner) ++ ['}'])) false]) ∧
    parse "--foo: \x7b a: 1; /* ; */ b: 2 \x7d;" =
      Except.ok [CNode.declaration "--foo" "\x7b a: 1; /* ; */ b: 2 \x7d" false] ∧
    parse "--foo: \x7b a: 1; /* ; \x7d */ b: 'x;\x7d'; \x7d;" =
      Except.ok [CNode.declaration "--foo"
        "\x7b a: 1; /* ; \x7d */ b: 'x;\x7d'; \x7d" false] ∧
    parse "--foo: not the end \\;, but this is;" =
      Except.ok [CNode.declaration "--foo" "not the end \\;, but this is" false] ∧
    parse "--foo: ;" = Except.ok [CNode.declaration "--foo" "" false] :=
  ⟨parse_captures_custom_property_block, by rfl, by rfl, by rfl, by rfl⟩

/-- Closed instance of C7's general clause: a block made of a plain
character, a top-level `;`, a comment containing `;` and `\x7d`, a string
containing `;` and `\x7d`, and a nested block. -/
theorem claim7_custom_property_raw_value_witness :
    parse (String.mk ("--foo: ".data ++
      ('{' :: renderPieces [RawPiece.plain 'a', RawPiece.semi,
        RawPiece.commentPiece [';', '}'], RawPiece.stringPiece '"' [';', '}'],
        RawPiece.blockPiece [RawPiece.semi]]) ++ ['}', ';'])) =
      Except.ok [CNode.declaration "--foo"
        (String.mk (('{' :: renderPieces [RawPiece.plain 'a', RawPiece.semi,
          RawPiece.commentPiece [';', '}'], RawPiece.stringPiece '"' [';', '}'],
          RawPiece.blockPiece [RawPiece.semi]]) ++ ['}'])) false] :=
  claim7_custom_property_raw_value.1
    [RawPiece.plain 'a', RawPiece.semi, RawPiece.commentPiece [';', '}'],
      RawPiece.stringPiece '"' [';', '}'], RawPiece.blockPiece [RawPiece.semi]]
    (by
      intro p hp
      simp only [List.mem_cons, List.not_mem_nil, or_false] at hp
      rcases hp with rfl | rfl | rfl | rfl | rfl
      · exact GoodPiece.plain 'a' (by decide)
      · exact GoodPiece.semi
      · exact GoodPiece.commentPiece _ (by decide) (by decide)
      · exact GoodPiece.stringPiece _ _ (Or.inr rfl) (by decide) (by decide)
      · refine GoodPiece.blockPiece _ ?_
        intro p2 hp2
        simp only [List.mem_singleton] at hp2
        rw [hp2]
        exact GoodPiece.semi)

end CssCore
